import Mathlib

/-!
Shallow embedding of the rendering core of `prompt_toolkit` (the screen
buffer in `prompt_toolkit/layout/screen.py` and the processor pipeline in
`prompt_toolkit/layout/processors.py`), together with theorems settling the
specification claims about it.
-/

set_option maxHeartbeats 1000000

/-- Style tags ("tokens" in pygments terms).  The source treats them as
opaque hashable identifiers in a dotted hierarchy; the processors only ever
construct `Token.Error`, `Token.SearchMatch`, `Token.SearchMatch.Current`,
`Token.SelectedText` and `Token.MatchingBracket`, and compare tags for
equality.  `other n` stands for the infinitely many remaining tags. -/
inductive Tok where
  | base : Tok
  | error : Tok
  | searchMatch : Tok
  | searchMatchCurrent : Tok
  | selectedText : Tok
  | matchingBracket : Tok
  | other : Nat → Tok
deriving DecidableEq, Repr

/-- Modelled from the spec: per-character display width — "display width
(0, 1, or 2 columns, derived from Unicode East-Asian-width rules)".  The
real `get_cwidth` lives in `prompt_toolkit/utils.py`, which is not among
the sources here.  Combining marks and the zero-width space occupy 0
columns; East-Asian wide/fullwidth ranges occupy 2; everything else 1. -/
def char_cwidth (c : Char) : Nat :=
  if 0x300 ≤ c.toNat ∧ c.toNat ≤ 0x36F then 0
  else if c.toNat = 0x200B then 0
  else if (0x1100 ≤ c.toNat ∧ c.toNat ≤ 0x115F) ∨
          (0x2E80 ≤ c.toNat ∧ c.toNat ≤ 0xA4CF) ∨
          (0xAC00 ≤ c.toNat ∧ c.toNat ≤ 0xD7A3) ∨
          (0xF900 ≤ c.toNat ∧ c.toNat ≤ 0xFAFF) ∨
          (0xFF00 ≤ c.toNat ∧ c.toNat ≤ 0xFF60) then 2
  else 1

/-- Modelled from the spec: `get_cwidth` of a string is the total column
width of its characters ("the substituted text is measured as a whole
string via the same width function used elsewhere"). -/
def get_cwidth (s : String) : Nat :=
  s.data.foldl (fun a c => a + char_cwidth c) 0

/-- `Char.display_mappings` from `screen.py`: the control characters that
are substituted by caret notation.  Note the source dictionary has no entry
for `'\x1e'` (it jumps from `'\x1d'` to `'\x1f'`). -/
def display_mappings (c : Char) : Option String :=
  if c.toNat = 0x00 then some "^@"
  else if c.toNat = 0x01 then some "^A"
  else if c.toNat = 0x02 then some "^B"
  else if c.toNat = 0x03 then some "^C"
  else if c.toNat = 0x04 then some "^D"
  else if c.toNat = 0x05 then some "^E"
  else if c.toNat = 0x06 then some "^F"
  else if c.toNat = 0x07 then some "^G"
  else if c.toNat = 0x08 then some "^H"
  else if c.toNat = 0x09 then some "^I"
  else if c.toNat = 0x0a then some "^J"
  else if c.toNat = 0x0b then some "^K"
  else if c.toNat = 0x0c then some "^L"
  else if c.toNat = 0x0d then some "^M"
  else if c.toNat = 0x0e then some "^N"
  else if c.toNat = 0x0f then some "^O"
  else if c.toNat = 0x10 then some "^P"
  else if c.toNat = 0x11 then some "^Q"
  else if c.toNat = 0x12 then some "^R"
  else if c.toNat = 0x13 then some "^S"
  else if c.toNat = 0x14 then some "^T"
  else if c.toNat = 0x15 then some "^U"
  else if c.toNat = 0x16 then some "^V"
  else if c.toNat = 0x17 then some "^W"
  else if c.toNat = 0x18 then some "^X"
  else if c.toNat = 0x19 then some "^Y"
  else if c.toNat = 0x1a then some "^Z"
  else if c.toNat = 0x1b then some "^["
  else if c.toNat = 0x1c then some "^\\"
  else if c.toNat = 0x1d then some "^]"
  else if c.toNat = 0x1f then some "^_"
  else if c.toNat = 0x7f then some "^?"
  else none

/-- A character cell (`Char` in `screen.py`; renamed to avoid clashing with
Lean's built-in `Char`).  Per the source's `__slots__`: display glyph,
style tag, display width. -/
structure PTChar where
  char : String
  token : Tok
  width : Nat
deriving DecidableEq, Repr

/-- `Char.__init__` from `screen.py`: substitute the raw character through
`display_mappings`, then compute the width of the (possibly substituted)
glyph. -/
def PTChar.make (c : Char) (token : Tok) : PTChar :=
  let s := (display_mappings c).getD (String.singleton c)
  { char := s, token := token, width := get_cwidth s }

/-- The sparse cell grid: `row → column → cell`, `none` meaning the
position was never written (reads as the default-fill cell). -/
abbrev Buf : Type := Nat → Nat → Option PTChar

/-- Point-update of the grid (`buffer[y][x] = char_obj`). -/
def bufSet (b : Buf) (y x : Nat) (c : PTChar) : Buf :=
  fun y' x' => if y' = y ∧ x' = x then some c else b y' x'

/-- `Screen` from `screen.py`. -/
structure Screen where
  buffer : Buf
  width : Nat
  cursor_position : Nat × Nat
  menu_position : Option (Nat × Nat)
  current_height : Nat
  screen_line_to_input_line : Nat → Option Nat

/-- `Screen.__init__`: fresh screen with an empty grid, cursor at the
origin, no menu anchor, height 1 and an empty line mapping. -/
def Screen.init (width : Nat) : Screen :=
  { buffer := fun _ _ => none
    width := width
    cursor_position := (0, 0)
    menu_position := none
    current_height := 1
    screen_line_to_input_line := fun _ => none }

/-- A styled-character stream: ordered `(style tag, text fragment)` pairs. -/
abbrev TokList : Type := List (Tok × String)

/-- The optional margin generator passed to `write_data`. -/
abbrev Margin : Type := Option (Option Nat → List (Tok × String))

/-- Mutable state of the `write_data` loop, made explicit. -/
structure WDState where
  buffer : Buf
  sl2il : Nat → Option Nat
  x : Nat
  y : Nat
  index : Nat
  line_number : Nat
  requires_line_feed : Bool
  indexes_to_pos : List (Nat × (Nat × Nat))

/-- One margin character written by `do_line_feed`: place the cell, place
the `Char(unichr(0))` sentinel after a double-width cell, advance `x`. -/
def marginWrite (token : Tok) (st : WDState) (c : Char) : WDState :=
  let char_obj := PTChar.make c token
  let char_width := char_obj.width
  let b1 := bufSet st.buffer st.y st.x char_obj
  let b2 := if 1 < char_width then bufSet b1 st.y (st.x + 1) (PTChar.make '\x00' Tok.base)
            else b1
  { st with buffer := b2, x := st.x + char_width }

/-- `do_line_feed` from `write_data`: record the screen-line/input-line
association (when this is not a continuation line) and emit the margin. -/
def do_line_feed (margin : Margin) (number : Option Nat) (st : WDState) : WDState :=
  let st :=
    match number with
    | some n => { st with sl2il := fun y' => if y' = st.y then some n else st.sl2il y' }
    | none => st
  match margin with
  | none => st
  | some m =>
      (m number).foldl (fun st p => p.2.data.foldl (marginWrite p.1) st) st

/-- The body of `write_data`'s inner loop, for one character of the input
stream: pending line feed, cell resolution, soft wrap, index recording,
newline handling or cell placement. -/
def write_char (width : Nat) (margin : Margin) (token : Tok) (st : WDState) (c : Char) :
    WDState :=
  let st :=
    if st.requires_line_feed then
      { do_line_feed margin (some st.line_number) st with requires_line_feed := false }
    else st
  let char_obj := PTChar.make c token
  let char_width := char_obj.width
  let st :=
    if width < st.x + char_width ∧ c ≠ '\n' then
      do_line_feed margin none { st with y := st.y + 1, x := 0 }
    else st
  let st := { st with indexes_to_pos := st.indexes_to_pos ++ [(st.index, (st.x, st.y))] }
  let st :=
    if c = '\n' then
      { st with y := st.y + 1, x := 0, requires_line_feed := true,
                line_number := st.line_number + 1 }
    else
      let b1 := bufSet st.buffer st.y st.x char_obj
      let b2 := if 1 < char_width then bufSet b1 st.y (st.x + 1) (PTChar.make '\x00' Tok.base)
                else b1
      { st with buffer := b2, x := st.x + char_width }
  { st with index := st.index + 1 }

/-- `Screen.write_data`: run the loop over every fragment and every
character, then bump `current_height`; returns the updated screen together
with the index→position map (as the association list in insertion order). -/
def Screen.write_data (s : Screen) (data : TokList) (width : Nat) (margin : Margin) :
    Screen × List (Nat × (Nat × Nat)) :=
  let st0 : WDState :=
    { buffer := s.buffer, sl2il := s.screen_line_to_input_line,
      x := 0, y := 0, index := 0, line_number := 0,
      requires_line_feed := true, indexes_to_pos := [] }
  let st := data.foldl (fun st p => p.2.data.foldl (write_char width margin p.1) st) st0
  ({ s with buffer := st.buffer,
            screen_line_to_input_line := st.sl2il,
            current_height := max s.current_height (st.y + 1) },
   st.indexes_to_pos)

/-- The input stream flattened to one `(style tag, character)` pair per
position — the granularity at which `write_data` iterates. -/
def flatten (data : TokList) : List (Tok × Char) :=
  data.flatMap (fun p => p.2.data.map (fun c => (p.1, c)))

example : (PTChar.make 'a' Tok.base).width = 1 := by decide
example : (PTChar.make '\x07' Tok.base).char = "^G" := by decide
example : (PTChar.make '\x07' Tok.base).width = 2 := by decide
example : (PTChar.make '中' Tok.base).width = 2 := by decide
example : (PTChar.make '\x1e' Tok.base).char = "\x1e" := by decide

/-- `WritePosition` from `screen.py`.  Coordinates are modelled as `Int`
because the Python constructor can receive (and must reject) negative
values. -/
structure WritePosition where
  xpos : Int
  ypos : Int
  width : Int
  height : Int
  extended_height : Int
deriving DecidableEq, Repr

/-- `WritePosition.__init__`: the `assert`s become an `Option` (a failed
assertion aborts construction); `extended_height or height` takes `height`
whenever the supplied value is `None` or `0` (Python falsiness). -/
def WritePosition.make (xpos ypos width height : Int) (extended_height : Option Int) :
    Option WritePosition :=
  if 0 ≤ height ∧ 0 ≤ extended_height.getD 0 ∧ 0 ≤ width ∧ 0 ≤ xpos ∧ 0 ≤ ypos then
    some { xpos := xpos, ypos := ypos, width := width, height := height,
           extended_height :=
             let e := extended_height.getD 0
             if e = 0 then height else e }
  else none

/-- `token_list_len`.  Modelled from the spec: it lives in
`prompt_toolkit/layout/utils.py`, which is not among the sources; per the
spec it is "the inserted stream's total character count". -/
def token_list_len (ts : TokList) : Nat := ts.foldl (fun a p => a + p.2.length) 0

/-- `BeforeInput.run`: the stream generated by `get_tokens` (here passed
directly as `tokens_before`) is prepended, and the index remap shifts by
its total character count. -/
def BeforeInput.run (tokens_before tokens : TokList) : TokList × (Nat → Nat) :=
  (tokens_before ++ tokens, fun i => i + token_list_len tokens_before)

/-- `AfterInput.run`: the generated stream is appended; identity remap. -/
def AfterInput.run (tokens_after tokens : TokList) : TokList × (Nat → Nat) :=
  (tokens ++ tokens_after, fun i => i)

/-- Expected caret-notation glyph for a control character. -/
def caret_glyph (n : Nat) : String :=
  if n = 0x7f then "^?" else String.mk ['^', Char.ofNat (n + 64)]

/-- C2: the control-character substitution table covers NUL..US and DEL
with one gap: every control character except `\x1e` (RS) is substituted by
its caret-notation glyph, but `\x1e` — absent from `display_mappings` in
the source — is stored raw.  (The claim says the whole range NUL..US is
substituted; the cell built from `\x1e` keeps the raw character.) -/
theorem char_control_substitution_gap :
    ((List.range 32).all fun n =>
        decide (n = 0x1e ∨ (PTChar.make (Char.ofNat n) Tok.base).char = caret_glyph n)) = true ∧
    (PTChar.make '\x7f' Tok.base).char = "^?" ∧
    (PTChar.make '\x1e' Tok.base).char = "\x1e" ∧
    (PTChar.make '\x1e' Tok.base).char ≠ caret_glyph 0x1e := by
  decide

/-- C7: `BeforeInput.run` prepends the generated stream and shifts the
index remap by its total character count `K`; composing with the
identity-remap `AfterInput` stage sends offset `i` to exactly `i + K`;
`AfterInput.run` appends and returns the identity remap. -/
theorem before_after_input_composition (tokens_before tokens_after tokens : TokList)
    (i : Nat) :
    (BeforeInput.run tokens_before tokens).1 = tokens_before ++ tokens ∧
    (BeforeInput.run tokens_before tokens).2 i = i + token_list_len tokens_before ∧
    (AfterInput.run tokens_after (BeforeInput.run tokens_before tokens).1).2
        ((BeforeInput.run tokens_before tokens).2 i) = i + token_list_len tokens_before ∧
    (AfterInput.run tokens_after tokens).1 = tokens ++ tokens_after ∧
    (AfterInput.run tokens_after tokens).2 i = i :=
  ⟨rfl, rfl, rfl, rfl, rfl⟩

/-- C8 counterexample: a `WritePosition` constructed with non-negative
arguments and an explicit extended height `3 < height = 5` succeeds and
stores `extended_height = 3`, so "every successfully constructed Write
Position satisfies extended-height ≥ height" is false of the code. -/
theorem writeposition_extended_lt_height :
    WritePosition.make 0 0 1 5 (some 3) =
      some { xpos := 0, ypos := 0, width := 1, height := 5, extended_height := 3 } ∧
    ¬ (5 : Int) ≤ 3 := by
  decide

/-- C8 (amended): construction fails whenever any of x, y, width, height is
negative; with non-negative arguments and no extended height supplied it
succeeds with `extended_height = height`; a supplied positive extended
height is stored as given (even below `height`). -/
theorem writeposition_make_spec (x y w h : Int) (eh : Option Int) (e : Int) :
    ((x < 0 ∨ y < 0 ∨ w < 0 ∨ h < 0) → WritePosition.make x y w h eh = none) ∧
    (0 ≤ x → 0 ≤ y → 0 ≤ w → 0 ≤ h →
      WritePosition.make x y w h none =
        some { xpos := x, ypos := y, width := w, height := h, extended_height := h }) ∧
    (0 ≤ x → 0 ≤ y → 0 ≤ w → 0 ≤ h → 0 < e →
      WritePosition.make x y w h (some e) =
        some { xpos := x, ypos := y, width := w, height := h, extended_height := e }) := by
  refine ⟨fun hneg => ?_, fun hx hy hw hh => ?_, fun hx hy hw hh he => ?_⟩
  · rw [WritePosition.make, if_neg]
    intro ⟨h1, _, h3, h4, h5⟩
    rcases hneg with h | h | h | h <;> omega
  · rw [WritePosition.make, if_pos ⟨hh, by simp, hw, hx, hy⟩]
    simp
  · rw [WritePosition.make, if_pos ⟨hh, by simpa using he.le, hw, hx, hy⟩]
    simp [he.ne']

/-- C8 witness: the amended constructor contract applied at concrete
inputs. -/
theorem writeposition_make_spec_witness :
    WritePosition.make (-1) 0 0 0 none = none ∧
    WritePosition.make 1 2 3 4 none =
      some { xpos := 1, ypos := 2, width := 3, height := 4, extended_height := 4 } ∧
    WritePosition.make 1 2 3 5 (some 7) =
      some { xpos := 1, ypos := 2, width := 3, height := 5, extended_height := 7 } :=
  ⟨(writeposition_make_spec (-1) 0 0 0 none 0).1 (Or.inl (by decide)),
   (writeposition_make_spec 1 2 3 4 none 0).2.1 (by decide) (by decide) (by decide) (by decide),
   (writeposition_make_spec 1 2 3 5 (some 7) 7).2.2 (by decide) (by decide) (by decide)
     (by decide) (by decide)⟩

/-- C9: `write_data` leaves `cursor_position`, `menu_position` and `width`
untouched, and `current_height` never decreases. -/
theorem write_data_frame (s : Screen) (data : TokList) (width : Nat) (margin : Margin) :
    ((s.write_data data width margin).1.cursor_position = s.cursor_position) ∧
    ((s.write_data data width margin).1.menu_position = s.menu_position) ∧
    ((s.write_data data width margin).1.width = s.width) ∧
    (s.current_height ≤ (s.write_data data width margin).1.current_height) := by
  refine ⟨rfl, rfl, rfl, ?_⟩
  simp only [Screen.write_data]
  exact le_max_left _ _

/-- C10: an explicit extended height of `0` is not stored: whenever
construction with `extended_height = 0` succeeds, the stored extended
height equals `height` — and such a construction is indeed accepted for
non-negative arguments. -/
theorem writeposition_zero_extended_height (x y w h : Int) (wp : WritePosition) :
    (WritePosition.make x y w h (some 0) = some wp → wp.extended_height = wp.height) ∧
    (0 ≤ x → 0 ≤ y → 0 ≤ w → 0 ≤ h → WritePosition.make x y w h (some 0) ≠ none) := by
  constructor
  · intro hmk
    rw [WritePosition.make] at hmk
    split at hmk
    · simp only [Option.some.injEq] at hmk
      subst hmk
      rfl
    · exact absurd hmk (by simp)
  · intro hx hy hw hh
    rw [WritePosition.make, if_pos ⟨hh, by simp, hw, hx, hy⟩]
    simp

/-- C10 witness: `WritePosition.make 1 2 3 4 (some 0)` stores extended
height `4 = height`. -/
theorem writeposition_zero_extended_height_witness :
    (WritePosition.make 1 2 3 4 (some 0) =
        some { xpos := 1, ypos := 2, width := 3, height := 4, extended_height := 4 }) ∧
    ({ xpos := 1, ypos := 2, width := 3, height := 4,
       extended_height := 4 : WritePosition }.extended_height =
     { xpos := 1, ypos := 2, width := 3, height := 4,
       extended_height := 4 : WritePosition }.height) :=
  ⟨by decide,
   (writeposition_zero_extended_height 1 2 3 4
      { xpos := 1, ypos := 2, width := 3, height := 4, extended_height := 4 }).1 (by decide)⟩

/-- Plain printable ASCII: width-1 characters that are neither control
characters nor newline. -/
def plainAscii (c : Char) : Prop := 0x20 ≤ c.toNat ∧ c.toNat ≤ 0x7e

instance : DecidablePred plainAscii := fun c => by
  unfold plainAscii
  infer_instance

theorem display_mappings_eq_none {c : Char} (h1 : 0x20 ≤ c.toNat) (h2 : c.toNat ≤ 0x7e) :
    display_mappings c = none := by
  unfold display_mappings
  iterate 32 rw [if_neg (by omega)]

theorem char_cwidth_plain {c : Char} (h1 : 0x20 ≤ c.toNat) (h2 : c.toNat ≤ 0x7e) :
    char_cwidth c = 1 := by
  unfold char_cwidth
  rw [if_neg (by omega), if_neg (by omega), if_neg (by omega)]

theorem PTChar.make_plain {c : Char} (t : Tok) (h1 : 0x20 ≤ c.toNat) (h2 : c.toNat ≤ 0x7e) :
    PTChar.make c t = { char := String.singleton c, token := t, width := 1 } := by
  simp only [PTChar.make]
  rw [display_mappings_eq_none h1 h2]
  simp [get_cwidth, String.singleton, char_cwidth_plain h1 h2]

theorem plain_ne_newline {c : Char} (h1 : 0x20 ≤ c.toNat) : c ≠ '\n' := by
  intro hc
  subst hc
  revert h1
  decide

theorem bufSet_isSome_iff (b : Buf) (y x : Nat) (cell : PTChar) (y' x' : Nat) :
    ((bufSet b y x cell) y' x').isSome ↔ ((y' = y ∧ x' = x) ∨ (b y' x').isSome) := by
  unfold bufSet
  by_cases h : y' = y ∧ x' = x
  · simp [h]
  · simp [h]

theorem bufSet_eq_some (b : Buf) (y x : Nat) (cell : PTChar) (y' x' : Nat) (cell' : PTChar)
    (h : bufSet b y x cell y' x' = some cell') : cell' = cell ∨ b y' x' = some cell' := by
  unfold bufSet at h
  by_cases he : y' = y ∧ x' = x
  · rw [if_pos he] at h
    exact Or.inl (Option.some.injEq .. ▸ h.symm)
  · rw [if_neg he] at h
    exact Or.inr h

theorem one_le_mul_add {W y x : Nat} (hW : 1 ≤ W) (h : ¬(y = 0 ∧ x = 0)) :
    1 ≤ y * W + x := by
  rcases Nat.eq_zero_or_pos y with hy | hy
  · subst hy
    omega
  · have : W ≤ y * W := Nat.le_mul_of_pos_left W hy
    omega

theorem mul_add_div_mod_unique {W y x k : Nat} (hW : 0 < W) (hx : x < W)
    (hk : y * W + x = k) : y = k / W ∧ x = k % W := by
  subst hk
  rw [Nat.mul_comm y W]
  constructor
  · rw [Nat.mul_add_div hW, Nat.div_eq_of_lt hx]
    omega
  · rw [Nat.mul_add_mod, Nat.mod_eq_of_lt hx]

/-- Invariant for the wrap-correctness claim: after `k` plain width-1
characters at target width `W` with no margin, the cursor stands at column
`(k-1) % W + 1` of row `(k-1) / W`, and exactly the grid positions
`(j / W, j % W)` for `j < k` hold a cell, every cell having width 1. -/
def InvC3 (W k : Nat) (st : WDState) : Prop :=
  st.x = (if k = 0 then 0 else (k - 1) % W + 1) ∧
  st.y = (if k = 0 then 0 else (k - 1) / W) ∧
  st.requires_line_feed = decide (k = 0) ∧
  (∀ y x, (st.buffer y x).isSome ↔ (y * W + x < k ∧ x < W)) ∧
  (∀ y x cell, st.buffer y x = some cell → cell.width = 1)

theorem invC3_step (W k : Nat) (hW : 1 ≤ W) (st : WDState) (t : Tok) (c : Char)
    (hc : plainAscii c) (h : InvC3 W k st) :
    InvC3 W (k + 1) (write_char W none t st c) := by
  obtain ⟨hca, hcb⟩ := hc
  obtain ⟨hx, hy, hrlf, hbuf, hwid⟩ := h
  have hne : c ≠ '\n' := plain_ne_newline hca
  have hnlc : (c = '\n') = False := eq_false hne
  have hmk := PTChar.make_plain t hca hcb
  have hlt11 : ((1 : Nat) < 1) = False := eq_false (by omega)
  rcases Nat.eq_zero_or_pos k with hk | hk
  · -- first character: consume the pending line feed, no wrap
    subst hk
    rw [if_pos rfl] at hx hy
    rw [show (decide (0 = 0)) = true by decide] at hrlf
    have hwrapc : (W < 0 + 1) = False := eq_false (by omega)
    simp only [write_char, do_line_feed, hmk, hrlf, if_true, ne_eq, hnlc, not_false_eq_true,
      and_true, true_and, false_and, hx, hy, hwrapc, hlt11, if_false]
    refine ⟨by simp, by simp, by simp, ?_, ?_⟩
    · intro y x
      simp only
      rw [bufSet_isSome_iff]
      constructor
      · rintro (⟨rfl, rfl⟩ | hs)
        · exact ⟨by omega, by omega⟩
        · rw [hbuf] at hs
          omega
      · rintro ⟨h1, h2⟩
        by_cases he : y = 0 ∧ x = 0
        · exact Or.inl he
        · exact absurd h1 (by have := one_le_mul_add hW he; omega)
    · intro y x cell hcell
      simp only at hcell
      rcases bufSet_eq_some _ _ _ _ _ _ _ hcell with rfl | hold
      · rfl
      · exact hwid _ _ _ hold
  · -- subsequent characters
    have hk1 : k ≠ 0 := by omega
    rw [if_neg hk1] at hx hy
    rw [show (decide (k = 0)) = false by simp [hk1]] at hrlf
    have hdm := Nat.div_add_mod (k - 1) W
    set q := (k - 1) / W with hq
    set r := (k - 1) % W with hr
    have hrW : r < W := Nat.mod_lt _ (by omega)
    have hkeq : k = W * q + r + 1 := by omega
    have hqW : q * W = W * q := by ring
    have hq1W : (q + 1) * W = W * q + W := by ring
    by_cases hwrap : r + 1 = W
    · -- the line is full: soft wrap to the next row
      have hsplit : W * (q + 1) = W * q + W := by
        rw [Nat.mul_add, Nat.mul_one]
      have hmod : k % W = 0 := by
        rw [hkeq, show W * q + r + 1 = W * (q + 1) by rw [hsplit]; omega]
        simp [Nat.mul_mod_right]
      have hdiv : k / W = q + 1 := by
        rw [hkeq, show W * q + r + 1 = W * (q + 1) by rw [hsplit]; omega]
        rw [Nat.mul_div_cancel_left _ (by omega : 0 < W)]
      have hwrapc : (W < r + 1 + 1) = True := eq_true (by omega)
      simp only [write_char, do_line_feed, hmk, hrlf, Bool.false_eq_true, if_false,
        ne_eq, hnlc, not_false_eq_true, and_true, true_and, false_and, hx, hy, hwrapc,
        hlt11, if_true]
      refine ⟨by simp [hmod], by simp [hdiv], by simp [hk1], ?_, ?_⟩
      · intro y x
        simp only
        rw [bufSet_isSome_iff]
        constructor
        · rintro (⟨rfl, rfl⟩ | hs)
          · exact ⟨by omega, by omega⟩
          · rw [hbuf] at hs
            omega
        · rintro ⟨h1, h2⟩
          by_cases he : y = q + 1 ∧ x = 0
          · exact Or.inl he
          · right
            rw [hbuf]
            refine ⟨?_, h2⟩
            rcases Nat.lt_or_ge (y * W + x) k with hlt | hge
            · exact hlt
            · exfalso
              have hyx : y * W + x = k := by omega
              have := mul_add_div_mod_unique (by omega : 0 < W) h2 hyx
              omega
      · intro y x cell hcell
        simp only at hcell
        rcases bufSet_eq_some _ _ _ _ _ _ _ hcell with rfl | hold
        · rfl
        · exact hwid _ _ _ hold
    · -- still room on the current row
      have hmod : k % W = r + 1 := by
        rw [hkeq, show W * q + r + 1 = W * q + (r + 1) by omega, Nat.mul_add_mod,
          Nat.mod_eq_of_lt (by omega)]
      have hdiv : k / W = q := by
        rw [hkeq, show W * q + r + 1 = W * q + (r + 1) by omega, Nat.mul_add_div (by omega),
          Nat.div_eq_of_lt (by omega)]
        omega
      have hwrapc : (W < r + 1 + 1) = False := eq_false (by omega)
      simp only [write_char, do_line_feed, hmk, hrlf, Bool.false_eq_true, if_false,
        ne_eq, hnlc, not_false_eq_true, and_true, true_and, false_and, hx, hy, hwrapc,
        hlt11]
      refine ⟨by simp [hmod], by simp [hdiv], by simp [hk1], ?_, ?_⟩
      · intro y x
        simp only
        rw [bufSet_isSome_iff]
        constructor
        · rintro (⟨rfl, rfl⟩ | hs)
          · exact ⟨by omega, by omega⟩
          · rw [hbuf] at hs
            omega
        · rintro ⟨h1, h2⟩
          by_cases he : y = q ∧ x = r + 1
          · exact Or.inl he
          · right
            rw [hbuf]
            refine ⟨?_, h2⟩
            rcases Nat.lt_or_ge (y * W + x) k with hlt | hge
            · exact hlt
            · exfalso
              have hyx : y * W + x = k := by omega
              have := mul_add_div_mod_unique (by omega : 0 < W) h2 hyx
              omega
      · intro y x cell hcell
        simp only at hcell
        rcases bufSet_eq_some _ _ _ _ _ _ _ hcell with rfl | hold
        · rfl
        · exact hwid _ _ _ hold

theorem write_data_foldl_flatten (width : Nat) (margin : Margin) (data : TokList)
    (st : WDState) :
    data.foldl (fun st p => p.2.data.foldl (write_char width margin p.1) st) st =
      (flatten data).foldl (fun st p => write_char width margin p.1 st p.2) st := by
  induction data generalizing st with
  | nil => rfl
  | cons p data ih =>
      simp only [List.foldl_cons]
      rw [ih, show flatten (p :: data) = p.2.data.map (fun c => (p.1, c)) ++ flatten data by
        simp [flatten], List.foldl_append, List.foldl_map]

theorem invC3_fold (W : Nat) (hW : 1 ≤ W) (L : List (Tok × Char))
    (hplain : ∀ p ∈ L, plainAscii p.2) (k : Nat) (st : WDState) (h : InvC3 W k st) :
    InvC3 W (k + L.length) (L.foldl (fun st p => write_char W none p.1 st p.2) st) := by
  induction L generalizing k st with
  | nil => simpa using h
  | cons p L ih =>
      simp only [List.foldl_cons, List.length_cons]
      have h1 := invC3_step W k hW st p.1 p.2 (hplain p (by simp)) h
      have h2 := ih (fun q hq => hplain q (by simp [hq])) (k + 1) _ h1
      rw [show k + (L.length + 1) = (k + 1) + L.length by omega]
      exact h2

/-- C3: writing `N ≥ 1` plain width-1 ASCII characters (no newlines) at
target width `W ≥ 1` with no margin fills exactly `⌈N/W⌉` rows — every
written cell lies on a row below `⌈N/W⌉` and within the first `W` columns
(the cell's single column included), and every row below `⌈N/W⌉` holds at
least one cell. -/
theorem write_data_wrap_correct (N W w0 : Nat) (data : TokList) (hN : 1 ≤ N) (hW : 1 ≤ W)
    (hlen : (flatten data).length = N)
    (hplain : ∀ p ∈ flatten data, plainAscii p.2) :
    (∀ y x cell, (((Screen.init w0).write_data data W none).1.buffer y x) = some cell →
        y < (N + W - 1) / W ∧ x + cell.width ≤ W) ∧
    (∀ y, y < (N + W - 1) / W →
        ∃ x, ((((Screen.init w0).write_data data W none).1.buffer y x)).isSome) := by
  have hceil : (N + W - 1) / W = (N - 1) / W + 1 := by
    rw [show N + W - 1 = (N - 1) + W by omega, Nat.add_div_right _ (by omega)]
  have hinit : InvC3 W 0
      { buffer := fun _ _ => none, sl2il := fun _ => none, x := 0, y := 0, index := 0,
        line_number := 0, requires_line_feed := true, indexes_to_pos := [] } := by
    refine ⟨rfl, rfl, rfl, fun y x => ?_, fun y x cell h => by simp at h⟩
    constructor
    · intro h
      simp at h
    · intro h
      omega
  have hfold := invC3_fold W hW (flatten data) hplain 0 _ hinit
  rw [Nat.zero_add, hlen] at hfold
  have hbeq : ((Screen.init w0).write_data data W none).1.buffer =
      ((flatten data).foldl (fun st p => write_char W none p.1 st p.2)
        { buffer := fun _ _ => none, sl2il := fun _ => none, x := 0, y := 0, index := 0,
          line_number := 0, requires_line_feed := true, indexes_to_pos := [] }).buffer := by
    simp only [Screen.write_data, Screen.init]
    rw [write_data_foldl_flatten]
  obtain ⟨-, -, -, hbuf, hwid⟩ := hfold
  rw [hbeq]
  constructor
  · intro y x cell hcell
    have hs : (y * W + x < N ∧ x < W) := (hbuf y x).mp (by rw [hcell]; rfl)
    have hw1 := hwid y x cell hcell
    have hyle : y ≤ (N - 1) / W := by
      rw [Nat.le_div_iff_mul_le (by omega : 0 < W)]
      omega
    exact ⟨by omega, by omega⟩
  · intro y hy
    refine ⟨0, (hbuf y 0).mpr ⟨?_, by omega⟩⟩
    have hyle : y ≤ (N - 1) / W := by omega
    have := (Nat.le_div_iff_mul_le (by omega : 0 < W)).mp hyle
    omega

/-- C3 witness: five plain characters at width 2 occupy exactly
`⌈5/2⌉ = 3` rows of at most 2 columns. -/
theorem write_data_wrap_correct_witness :
    (∀ y x cell,
        (((Screen.init 2).write_data [(Tok.base, "abcde")] 2 none).1.buffer y x) = some cell →
        y < (5 + 2 - 1) / 2 ∧ x + cell.width ≤ 2) ∧
    (∀ y, y < (5 + 2 - 1) / 2 →
        ∃ x, ((((Screen.init 2).write_data [(Tok.base, "abcde")] 2 none).1.buffer y x)).isSome) :=
  write_data_wrap_correct 5 2 2 [(Tok.base, "abcde")] (by decide) (by decide) (by decide)
    (by decide)

theorem bufSet_ne_row (b : Buf) (y x : Nat) (cell : PTChar) (y' x' : Nat) (hy : y' ≠ y) :
    bufSet b y x cell y' x' = b y' x' := by
  unfold bufSet
  rw [if_neg (fun h => hy h.1)]

theorem bufSet_ne_col (b : Buf) (y x : Nat) (cell : PTChar) (y' x' : Nat) (hx : x' ≠ x) :
    bufSet b y x cell y' x' = b y' x' := by
  unfold bufSet
  rw [if_neg (fun h => hx h.2)]

theorem bufSet_same (b : Buf) (y x : Nat) (cell : PTChar) :
    bufSet b y x cell y x = some cell := by
  unfold bufSet
  rw [if_pos ⟨rfl, rfl⟩]

/-- Fields of the `write_data` loop state that margin emission and the
screen-line bookkeeping leave untouched, together with row-locality of
their grid writes (only the current row is written). -/
def MPres (st st' : WDState) : Prop :=
  st'.y = st.y ∧ st'.index = st.index ∧
  st'.requires_line_feed = st.requires_line_feed ∧
  st'.indexes_to_pos = st.indexes_to_pos ∧
  ∀ y' x', y' ≠ st.y → st'.buffer y' x' = st.buffer y' x'

theorem mpres_refl (st : WDState) : MPres st st :=
  ⟨rfl, rfl, rfl, rfl, fun _ _ _ => rfl⟩

theorem mpres_trans {s1 s2 s3 : WDState} (h1 : MPres s1 s2) (h2 : MPres s2 s3) :
    MPres s1 s3 := by
  obtain ⟨a1, b1, c1, d1, e1⟩ := h1
  obtain ⟨a2, b2, c2, d2, e2⟩ := h2
  refine ⟨a2.trans a1, b2.trans b1, c2.trans c1, d2.trans d1, fun y' x' hy => ?_⟩
  rw [e2 y' x' (by rw [a1]; exact hy), e1 y' x' hy]

theorem marginWrite_mpres (t : Tok) (st : WDState) (c : Char) :
    MPres st (marginWrite t st c) := by
  unfold marginWrite
  refine ⟨rfl, rfl, rfl, rfl, fun y' x' hy => ?_⟩
  simp only
  split
  · rw [bufSet_ne_row _ _ _ _ _ _ hy, bufSet_ne_row _ _ _ _ _ _ hy]
  · rw [bufSet_ne_row _ _ _ _ _ _ hy]

theorem mpres_foldl {α : Type} (f : WDState → α → WDState)
    (hf : ∀ st a, MPres st (f st a)) (l : List α) (st : WDState) :
    MPres st (l.foldl f st) := by
  induction l generalizing st with
  | nil => exact mpres_refl st
  | cons a l ih => exact mpres_trans (hf st a) (ih (f st a))

theorem dlf_mpres (margin : Margin) (num : Option Nat) (st : WDState) :
    MPres st (do_line_feed margin num st) := by
  have hmfold : ∀ (l : TokList) (s : WDState),
      MPres s (l.foldl (fun s p => p.2.data.foldl (marginWrite p.1) s) s) :=
    fun l s => mpres_foldl _
      (fun s p => mpres_foldl _ (fun s c => marginWrite_mpres p.1 s c) p.2.data s) l s
  unfold do_line_feed
  cases num with
  | none =>
      cases margin with
      | none => exact mpres_refl st
      | some m => exact hmfold (m none) st
  | some n =>
      cases margin with
      | none => exact ⟨rfl, rfl, rfl, rfl, fun _ _ _ => rfl⟩
      | some m =>
          have h1 : MPres st
              { st with sl2il := fun y' => if y' = st.y then some n else st.sl2il y' } :=
            ⟨rfl, rfl, rfl, rfl, fun _ _ _ => rfl⟩
          exact mpres_trans h1 (hmfold (m (some n)) _)

/-- Stage 1 of `write_char`: consume a pending line feed. -/
def wcFeed (margin : Margin) (st : WDState) : WDState :=
  if st.requires_line_feed then
    { do_line_feed margin (some st.line_number) st with requires_line_feed := false }
  else st

/-- Stage 2 of `write_char`: soft wrap when the cell does not fit. -/
def wcWrap (width : Nat) (margin : Margin) (t : Tok) (c : Char) (st : WDState) : WDState :=
  if width < st.x + (PTChar.make c t).width ∧ c ≠ '\n' then
    do_line_feed margin none { st with y := st.y + 1, x := 0 }
  else st

/-- Stage 3 of `write_char`: record the index→position entry. -/
def wcRecord (st : WDState) : WDState :=
  { st with indexes_to_pos := st.indexes_to_pos ++ [(st.index, (st.x, st.y))] }

/-- Stage 4 of `write_char`: newline handling or cell placement. -/
def wcPlace (t : Tok) (c : Char) (st : WDState) : WDState :=
  if c = '\n' then
    { st with y := st.y + 1, x := 0, requires_line_feed := true,
              line_number := st.line_number + 1 }
  else
    let char_obj := PTChar.make c t
    let b1 := bufSet st.buffer st.y st.x char_obj
    let b2 := if 1 < char_obj.width then bufSet b1 st.y (st.x + 1) (PTChar.make '\x00' Tok.base)
              else b1
    { st with buffer := b2, x := st.x + char_obj.width }

theorem write_char_eq (width : Nat) (margin : Margin) (t : Tok) (st : WDState) (c : Char) :
    write_char width margin t st c =
      { wcPlace t c (wcRecord (wcWrap width margin t c (wcFeed margin st))) with
        index := (wcPlace t c (wcRecord (wcWrap width margin t c (wcFeed margin st)))).index
          + 1 } := by
  rfl

theorem wcFeed_y (margin : Margin) (st : WDState) : (wcFeed margin st).y = st.y := by
  unfold wcFeed
  split
  · exact (dlf_mpres margin (some st.line_number) st).1
  · rfl

theorem wcFeed_index (margin : Margin) (st : WDState) :
    (wcFeed margin st).index = st.index := by
  unfold wcFeed
  split
  · exact (dlf_mpres margin (some st.line_number) st).2.1
  · rfl

theorem wcFeed_ipos (margin : Margin) (st : WDState) :
    (wcFeed margin st).indexes_to_pos = st.indexes_to_pos := by
  unfold wcFeed
  split
  · exact (dlf_mpres margin (some st.line_number) st).2.2.2.1
  · rfl

theorem wcFeed_rlf (margin : Margin) (st : WDState) :
    (wcFeed margin st).requires_line_feed = false := by
  unfold wcFeed
  split
  · rfl
  · rename_i h
    simpa using h

theorem wcFeed_buffer (margin : Margin) (st : WDState) (y' x' : Nat) (hy : y' ≠ st.y) :
    (wcFeed margin st).buffer y' x' = st.buffer y' x' := by
  unfold wcFeed
  split
  · exact (dlf_mpres margin (some st.line_number) st).2.2.2.2 y' x' hy
  · rfl

theorem wcFeed_id (margin : Margin) (st : WDState) (h : st.requires_line_feed = false) :
    wcFeed margin st = st := by
  unfold wcFeed
  rw [h]
  rfl

theorem wcWrap_index (width : Nat) (margin : Margin) (t : Tok) (c : Char) (st : WDState) :
    (wcWrap width margin t c st).index = st.index := by
  unfold wcWrap
  split
  · exact (dlf_mpres margin none _).2.1
  · rfl

theorem wcWrap_ipos (width : Nat) (margin : Margin) (t : Tok) (c : Char) (st : WDState) :
    (wcWrap width margin t c st).indexes_to_pos = st.indexes_to_pos := by
  unfold wcWrap
  split
  · exact (dlf_mpres margin none _).2.2.2.1
  · rfl

theorem wcWrap_rlf (width : Nat) (margin : Margin) (t : Tok) (c : Char) (st : WDState) :
    (wcWrap width margin t c st).requires_line_feed = st.requires_line_feed := by
  unfold wcWrap
  split
  · exact (dlf_mpres margin none _).2.2.1
  · rfl

theorem wcWrap_y_ge (width : Nat) (margin : Margin) (t : Tok) (c : Char) (st : WDState) :
    st.y ≤ (wcWrap width margin t c st).y := by
  unfold wcWrap
  split
  · rw [(dlf_mpres margin none _).1]
    simp
  · exact Nat.le_refl _

theorem wcWrap_y_le (width : Nat) (margin : Margin) (t : Tok) (c : Char) (st : WDState) :
    (wcWrap width margin t c st).y ≤ st.y + 1 := by
  unfold wcWrap
  split
  · rw [(dlf_mpres margin none _).1]
  · exact Nat.le_succ _

theorem wcWrap_buffer (width : Nat) (margin : Margin) (t : Tok) (c : Char) (st : WDState)
    (y' x' : Nat) (hy : y' ≤ st.y) :
    (wcWrap width margin t c st).buffer y' x' = st.buffer y' x' := by
  unfold wcWrap
  split
  · exact (dlf_mpres margin none _).2.2.2.2 y' x' (by simp only; omega)
  · rfl

theorem wcPlace_ipos (t : Tok) (c : Char) (st : WDState) :
    (wcPlace t c st).indexes_to_pos = st.indexes_to_pos := by
  unfold wcPlace
  split <;> rfl

theorem wcPlace_index (t : Tok) (c : Char) (st : WDState) :
    (wcPlace t c st).index = st.index := by
  unfold wcPlace
  split <;> rfl

theorem wcPlace_y_ge (t : Tok) (c : Char) (st : WDState) : st.y ≤ (wcPlace t c st).y := by
  unfold wcPlace
  split
  · exact Nat.le_succ _
  · exact Nat.le_refl _

theorem wcPlace_newline (t : Tok) (st : WDState) :
    wcPlace t '\n' st =
      { st with y := st.y + 1, x := 0, requires_line_feed := true,
                line_number := st.line_number + 1 } := by
  unfold wcPlace
  rw [if_pos rfl]

theorem wcPlace_vis (t : Tok) (c : Char) (st : WDState) (h : c ≠ '\n') :
    wcPlace t c st =
      { st with
        buffer :=
          if 1 < (PTChar.make c t).width then
            bufSet (bufSet st.buffer st.y st.x (PTChar.make c t)) st.y (st.x + 1)
              (PTChar.make '\x00' Tok.base)
          else bufSet st.buffer st.y st.x (PTChar.make c t),
        x := st.x + (PTChar.make c t).width } := by
  unfold wcPlace
  rw [if_neg h]

theorem wcPlace_buffer_pres (t : Tok) (c : Char) (st : WDState) (h : c ≠ '\n')
    (y' x' : Nat) (hne : y' ≠ st.y ∨ (x' ≠ st.x ∧ x' ≠ st.x + 1)) :
    (wcPlace t c st).buffer y' x' = st.buffer y' x' := by
  rw [wcPlace_vis t c st h]
  simp only
  rcases hne with hy | ⟨hx1, hx2⟩
  · split
    · rw [bufSet_ne_row _ _ _ _ _ _ hy, bufSet_ne_row _ _ _ _ _ _ hy]
    · rw [bufSet_ne_row _ _ _ _ _ _ hy]
  · split
    · rw [bufSet_ne_col _ _ _ _ _ _ hx2, bufSet_ne_col _ _ _ _ _ _ hx1]
    · rw [bufSet_ne_col _ _ _ _ _ _ hx1]

theorem wcPlace_buffer_self (t : Tok) (c : Char) (st : WDState) (h : c ≠ '\n') :
    (wcPlace t c st).buffer st.y st.x = some (PTChar.make c t) := by
  rw [wcPlace_vis t c st h]
  simp only
  split
  · rw [bufSet_ne_col _ _ _ _ _ _ (by omega), bufSet_same]
  · rw [bufSet_same]

theorem mem_keys_lt {l : List (Nat × (Nat × Nat))} {n : Nat}
    (hB : l.map Prod.fst = List.range n) {i : Nat} {pr : Nat × Nat}
    (h : (i, pr) ∈ l) : i < n := by
  have hm : i ∈ l.map Prod.fst := List.mem_map_of_mem Prod.fst h
  rw [hB, List.mem_range] at hm
  exact hm

theorem keys_unique {α : Type} {l : List (Nat × α)} (h : (l.map Prod.fst).Nodup)
    {i : Nat} {a b : α} (ha : (i, a) ∈ l) (hb : (i, b) ∈ l) : a = b := by
  induction l with
  | nil => cases ha
  | cons p l ih =>
      rw [List.map_cons, List.nodup_cons] at h
      rcases List.mem_cons.mp ha with ha1 | ha'
      · rcases List.mem_cons.mp hb with hb1 | hb'
        · exact (Prod.ext_iff.mp (ha1.trans hb1.symm)).2
        · exfalso
          have hmem : i ∈ l.map Prod.fst := List.mem_map_of_mem Prod.fst hb'
          apply h.1
          rw [← ha1]
          exact hmem
      · rcases List.mem_cons.mp hb with hb1 | hb'
        · exfalso
          have hmem : i ∈ l.map Prod.fst := List.mem_map_of_mem Prod.fst ha'
          apply h.1
          rw [← hb1]
          exact hmem
        · exact ih h.2 ha' hb'

/-- Invariant for the index-map claim, for the processed prefix `L` of the
flattened stream: the running index equals the number of processed
characters; the index→position list has exactly the keys `0..|L|-1` in
order; every recorded visible character's cell is in the grid at its
recorded position, strictly behind the cursor; every recorded newline lies
on a fully departed row; and the cursor stands immediately after the last
recorded visible character. -/
def InvC1 (L : List (Tok × Char)) (st : WDState) : Prop :=
  st.index = L.length ∧
  st.indexes_to_pos.map Prod.fst = List.range L.length ∧
  (∀ i t c x y, L[i]? = some (t, c) → (i, (x, y)) ∈ st.indexes_to_pos →
    (c ≠ '\n' →
      st.buffer y x = some (PTChar.make c t) ∧
      (y < st.y ∨ (y = st.y ∧ x < st.x ∧ st.requires_line_feed = false))) ∧
    (c = '\n' → y < st.y)) ∧
  (∀ t c x y, L[L.length - 1]? = some (t, c) → c ≠ '\n' →
    (L.length - 1, (x, y)) ∈ st.indexes_to_pos →
    st.y = y ∧ st.x = x + (PTChar.make c t).width ∧ st.requires_line_feed = false)

theorem wcPlace_buffer_ne_row (t : Tok) (c : Char) (st : WDState) (y' x' : Nat)
    (hy : y' ≠ st.y) : (wcPlace t c st).buffer y' x' = st.buffer y' x' := by
  by_cases hc : c = '\n'
  · subst hc
    rw [wcPlace_newline]
  · exact wcPlace_buffer_pres t c st hc y' x' (Or.inl hy)

theorem wcPlace_y_vis (t : Tok) (c : Char) (st : WDState) (h : c ≠ '\n') :
    (wcPlace t c st).y = st.y := by
  rw [wcPlace_vis t c st h]

theorem wcPlace_x_vis (t : Tok) (c : Char) (st : WDState) (h : c ≠ '\n') :
    (wcPlace t c st).x = st.x + (PTChar.make c t).width := by
  rw [wcPlace_vis t c st h]

theorem wcPlace_rlf_vis (t : Tok) (c : Char) (st : WDState) (h : c ≠ '\n') :
    (wcPlace t c st).requires_line_feed = st.requires_line_feed := by
  rw [wcPlace_vis t c st h]

theorem wcPlace_y_newline (t : Tok) (st : WDState) :
    (wcPlace t '\n' st).y = st.y + 1 := by
  rw [wcPlace_newline]

theorem wcPlace_buffer_newline (t : Tok) (st : WDState) :
    (wcPlace t '\n' st).buffer = st.buffer := by
  rw [wcPlace_newline]

theorem invC1_step (W : Nat) (margin : Margin) (L : List (Tok × Char)) (st : WDState)
    (t : Tok) (c : Char) (hpos : 0 < (PTChar.make c t).width)
    (h : InvC1 L st) : InvC1 (L ++ [(t, c)]) (write_char W margin t st c) := by
  obtain ⟨hA, hB, hC, hF⟩ := h
  rw [write_char_eq]
  set sF := wcFeed margin st with hsF
  set sW := wcWrap W margin t c sF with hsW
  set sR := wcRecord sW with hsR
  set sP := wcPlace t c sR with hsP
  have hFy : sF.y = st.y := wcFeed_y margin st
  have hFi : sF.index = st.index := wcFeed_index margin st
  have hFp : sF.indexes_to_pos = st.indexes_to_pos := wcFeed_ipos margin st
  have hFr : sF.requires_line_feed = false := wcFeed_rlf margin st
  have hWi : sW.index = st.index := by rw [hsW, wcWrap_index, hFi]
  have hWp : sW.indexes_to_pos = st.indexes_to_pos := by rw [hsW, wcWrap_ipos, hFp]
  have hWr : sW.requires_line_feed = false := by rw [hsW, wcWrap_rlf, hFr]
  have hWyge : st.y ≤ sW.y := by
    rw [hsW]
    exact hFy ▸ wcWrap_y_ge W margin t c sF
  have hRb : sR.buffer = sW.buffer := rfl
  have hRx : sR.x = sW.x := rfl
  have hRy : sR.y = sW.y := rfl
  have hRi : sR.index = sW.index := rfl
  have hRr : sR.requires_line_feed = sW.requires_line_feed := rfl
  have hPi : sP.index = st.index := by rw [hsP, wcPlace_index, hRi, hWi]
  have hPp : sP.indexes_to_pos = st.indexes_to_pos ++ [(st.index, (sW.x, sW.y))] := by
    rw [hsP, wcPlace_ipos, hsR]
    unfold wcRecord
    simp only [hWp, hWi]
  have hPyge : sW.y ≤ sP.y := by
    rw [hsP]
    exact hRy ▸ wcPlace_y_ge t c sR
  refine ⟨?_, ?_, ?_, ?_⟩
  · show sP.index + 1 = (L ++ [(t, c)]).length
    rw [hPi, hA, List.length_append, List.length_singleton]
  · show sP.indexes_to_pos.map Prod.fst = List.range (L ++ [(t, c)]).length
    rw [hPp, List.map_append, hB, hA, List.length_append, List.length_singleton,
      List.map_singleton, ← List.range_succ]
  · intro i t' c' x y hget hmem
    show (c' ≠ '\n' → sP.buffer y x = some (PTChar.make c' t') ∧
        (y < sP.y ∨ (y = sP.y ∧ x < sP.x ∧ sP.requires_line_feed = false))) ∧
      (c' = '\n' → y < sP.y)
    rw [hPp] at hmem
    rcases List.mem_append.mp hmem with hold | hnew
    · -- a record of a previously processed character
      have hi : i < L.length := mem_keys_lt hB hold
      rw [List.getElem?_append_left hi] at hget
      have hCi := hC i t' c' x y hget hold
      constructor
      · intro hvis
        obtain ⟨hcell, hord⟩ := hCi.1 hvis
        rcases hord with hlt | ⟨hey, hxlt, hrlf0⟩
        · -- the record lies on a fully departed row
          have hb1 : sF.buffer y x = st.buffer y x :=
            wcFeed_buffer margin st y x (by omega)
          have hb2 : sW.buffer y x = sF.buffer y x := by
            rw [hsW]
            exact wcWrap_buffer W margin t c sF y x (by omega)
          have hb3 : sP.buffer y x = sR.buffer y x := by
            rw [hsP]
            exact wcPlace_buffer_ne_row t c sR y x (by rw [hRy]; omega)
          refine ⟨by rw [hb3, hRb, hb2, hb1]; exact hcell, Or.inl (by omega)⟩
        · -- the record lies on the current row, strictly behind the cursor
          have hFid : sF = st := by
            rw [hsF]
            exact wcFeed_id margin st hrlf0
          by_cases hw : W < sF.x + (PTChar.make c t).width ∧ c ≠ '\n'
          · -- soft wrap: the cursor moves to a fresh row
            have hsWeq : sW = do_line_feed margin none { sF with y := sF.y + 1, x := 0 } := by
              rw [hsW]
              unfold wcWrap
              rw [if_pos hw]
            have hWy : sW.y = st.y + 1 := by
              rw [hsWeq, (dlf_mpres margin none _).1]
              simp only
              omega
            have hb2 : sW.buffer y x = sF.buffer y x := by
              rw [hsWeq]
              exact (dlf_mpres margin none _).2.2.2.2 y x (by simp only; omega)
            have hb3 : sP.buffer y x = sR.buffer y x := by
              rw [hsP]
              exact wcPlace_buffer_ne_row t c sR y x (by rw [hRy]; omega)
            refine ⟨by rw [hb3, hRb, hb2, hFid]; exact hcell, Or.inl (by omega)⟩
          · -- no wrap
            have hsWeq : sW = st := by
              rw [hsW]
              unfold wcWrap
              rw [if_neg hw]
              exact hFid
            by_cases hc : c = '\n'
            · have hb3 : sP.buffer y x = sR.buffer y x := by
                rw [hsP, hc, wcPlace_buffer_newline]
              have hPy : sP.y = sW.y + 1 := by
                rw [hsP, hc, ← hRy, wcPlace_y_newline]
              refine ⟨by rw [hb3, hRb, hsWeq]; exact hcell, Or.inl (by omega)⟩
            · have hb3 : sP.buffer y x = sR.buffer y x := by
                rw [hsP]
                refine wcPlace_buffer_pres t c sR hc y x (Or.inr ⟨?_, ?_⟩)
                · rw [hRx, hsWeq]
                  omega
                · rw [hRx, hsWeq]
                  omega
              have hPy : sP.y = st.y := by
                rw [hsP, wcPlace_y_vis t c sR hc, hRy, hsWeq]
              have hPx : sP.x = st.x + (PTChar.make c t).width := by
                rw [hsP, wcPlace_x_vis t c sR hc, hRx, hsWeq]
              have hPr : sP.requires_line_feed = false := by
                rw [hsP, wcPlace_rlf_vis t c sR hc, hRr, hWr]
              refine ⟨by rw [hb3, hRb, hsWeq]; exact hcell, Or.inr ⟨by omega, by omega, hPr⟩⟩
      · intro hnl
        have hylt := hCi.2 hnl
        exact (by omega : y < sP.y)
    · -- the record appended for the current character
      have heq := List.mem_singleton.mp hnew
      have hieq : i = st.index := (Prod.ext_iff.mp heq).1
      have hxy : x = sW.x ∧ y = sW.y := by
        have := (Prod.ext_iff.mp heq).2
        exact ⟨(Prod.ext_iff.mp this).1, (Prod.ext_iff.mp this).2⟩
      obtain ⟨hxx, hyy⟩ := hxy
      have hiL : i = L.length := by rw [hieq, hA]
      rw [hiL, List.getElem?_concat_length] at hget
      obtain ⟨rfl, rfl⟩ : t = t' ∧ c = c' := by simpa using Option.some.inj hget
      constructor
      · intro hvis
        have hb : sP.buffer sR.y sR.x = some (PTChar.make c t) := by
          rw [hsP]
          exact wcPlace_buffer_self t c sR hvis
        have hPy : sP.y = sW.y := by
          rw [hsP, wcPlace_y_vis t c sR hvis, hRy]
        have hPx : sP.x = sW.x + (PTChar.make c t).width := by
          rw [hsP, wcPlace_x_vis t c sR hvis, hRx]
        have hPr : sP.requires_line_feed = false := by
          rw [hsP, wcPlace_rlf_vis t c sR hvis, hRr, hWr]
        refine ⟨by rw [hxx, hyy, ← hRx, ← hRy]; exact hb,
          Or.inr ⟨by omega, by omega, hPr⟩⟩
      · intro hnl
        have hPy : sP.y = sW.y + 1 := by
          rw [hsP, hnl, ← hRy, wcPlace_y_newline]
        omega
  · intro t' c' x y hlast hvis hmem
    show sP.y = y ∧ sP.x = x + (PTChar.make c' t').width ∧ sP.requires_line_feed = false
    have hlen : (L ++ [(t, c)]).length - 1 = L.length := by
      rw [List.length_append, List.length_singleton]
      omega
    rw [hlen] at hlast hmem
    rw [List.getElem?_concat_length] at hlast
    obtain ⟨rfl, rfl⟩ : t = t' ∧ c = c' := by simpa using Option.some.inj hlast
    rw [hPp] at hmem
    rcases List.mem_append.mp hmem with hold | hnew
    · exact absurd (mem_keys_lt hB hold) (by omega)
    · have heq := List.mem_singleton.mp hnew
      have hxy := (Prod.ext_iff.mp heq).2
      have hxx : x = sW.x := (Prod.ext_iff.mp hxy).1
      have hyy : y = sW.y := (Prod.ext_iff.mp hxy).2
      have hPy : sP.y = sW.y := by
        rw [hsP, wcPlace_y_vis t c sR hvis, hRy]
      have hPx : sP.x = sW.x + (PTChar.make c t).width := by
        rw [hsP, wcPlace_x_vis t c sR hvis, hRx]
      have hPr : sP.requires_line_feed = false := by
        rw [hsP, wcPlace_rlf_vis t c sR hvis, hRr, hWr]
      exact ⟨by omega, by omega, hPr⟩

theorem wcRecord_ipos (st : WDState) :
    (wcRecord st).indexes_to_pos = st.indexes_to_pos ++ [(st.index, (st.x, st.y))] := rfl

theorem write_char_ipos_mono (W : Nat) (margin : Margin) (t : Tok) (st : WDState) (c : Char) :
    ∀ e ∈ st.indexes_to_pos, e ∈ (write_char W margin t st c).indexes_to_pos := by
  intro e he
  rw [write_char_eq]
  show e ∈ (wcPlace t c (wcRecord (wcWrap W margin t c (wcFeed margin st)))).indexes_to_pos
  rw [wcPlace_ipos, wcRecord_ipos, wcWrap_ipos, wcFeed_ipos]
  exact List.mem_append_left _ he

theorem fold_ipos_mono (W : Nat) (margin : Margin) (M : List (Tok × Char)) (st : WDState) :
    ∀ e ∈ st.indexes_to_pos,
      e ∈ (M.foldl (fun st p => write_char W margin p.1 st p.2) st).indexes_to_pos := by
  induction M generalizing st with
  | nil => exact fun e he => he
  | cons p M ih =>
      intro e he
      exact ih _ e (write_char_ipos_mono W margin p.1 st p.2 e he)

theorem invC1_fold (W : Nat) (margin : Margin) (L M : List (Tok × Char))
    (hpos : ∀ p ∈ M, 0 < (PTChar.make p.2 p.1).width) (st : WDState) (h : InvC1 L st) :
    InvC1 (L ++ M) (M.foldl (fun st p => write_char W margin p.1 st p.2) st) := by
  induction M generalizing L st with
  | nil => simpa using h
  | cons p M ih =>
      obtain ⟨pt, pc⟩ := p
      simp only [List.foldl_cons]
      have h1 := invC1_step W margin L st pt pc (hpos (pt, pc) (by simp)) h
      have h2 := ih (L ++ [(pt, pc)]) (fun q hq => hpos q (by simp [hq])) _ h1
      rw [List.append_assoc] at h2
      simpa using h2

/-- The initial state of the `write_data` loop over a fresh screen. -/
def wdInit : WDState :=
  { buffer := fun _ _ => none, sl2il := fun _ => none, x := 0, y := 0, index := 0,
    line_number := 0, requires_line_feed := true, indexes_to_pos := [] }

theorem invC1_init : InvC1 [] wdInit := by
  refine ⟨rfl, rfl, ?_, ?_⟩
  · intro i t c x y hget hmem
    simp at hget
  · intro t c x y hlast hvis hmem
    simp at hlast

theorem write_data_snd_eq (data : TokList) (W w0 : Nat) (margin : Margin) :
    ((Screen.init w0).write_data data W margin).2 =
      ((flatten data).foldl (fun st p => write_char W margin p.1 st p.2)
        wdInit).indexes_to_pos := by
  simp only [Screen.write_data]
  rw [write_data_foldl_flatten]
  rfl

theorem write_data_fst_buffer_eq (data : TokList) (W w0 : Nat) (margin : Margin) :
    ((Screen.init w0).write_data data W margin).1.buffer =
      ((flatten data).foldl (fun st p => write_char W margin p.1 st p.2) wdInit).buffer := by
  simp only [Screen.write_data]
  rw [write_data_foldl_flatten]
  rfl

/-- C1 (amended): when every character of the stream has a positive display
width, `write_data` on a fresh screen returns an index→position map whose
keys are exactly the stream offsets `0..N-1` in order, the grid at a
non-newline offset's recorded position holds exactly that character's cell,
and a newline following a visible character is recorded at the pre-wrap
position — the same row as that character, one cell-width to its right. -/
theorem write_data_index_map (data : TokList) (W w0 : Nat) (margin : Margin)
    (hpos : ∀ p ∈ flatten data, 0 < (PTChar.make p.2 p.1).width) :
    (((Screen.init w0).write_data data W margin).2.map Prod.fst =
        List.range (flatten data).length) ∧
    (∀ i t c x y, (flatten data)[i]? = some (t, c) → c ≠ '\n' →
        (i, (x, y)) ∈ ((Screen.init w0).write_data data W margin).2 →
        ((Screen.init w0).write_data data W margin).1.buffer y x =
          some (PTChar.make c t)) ∧
    (∀ i t t' c x y, (flatten data)[i]? = some (t, c) → c ≠ '\n' →
        (flatten data)[i + 1]? = some (t', '\n') →
        (i, (x, y)) ∈ ((Screen.init w0).write_data data W margin).2 →
        (i + 1, (x + (PTChar.make c t).width, y)) ∈
          ((Screen.init w0).write_data data W margin).2) := by
  have hInv : InvC1 (flatten data)
      ((flatten data).foldl (fun st p => write_char W margin p.1 st p.2) wdInit) := by
    simpa using invC1_fold W margin [] (flatten data) hpos wdInit invC1_init
  refine ⟨?_, ?_, ?_⟩
  · rw [write_data_snd_eq]
    exact hInv.2.1
  · intro i t c x y hget hvis hmem
    rw [write_data_snd_eq] at hmem
    rw [write_data_fst_buffer_eq]
    exact ((hInv.2.2.1 i t c x y hget hmem).1 hvis).1
  · intro i t t' c x y hget hvis hget2 hmem
    rw [write_data_snd_eq] at hmem
    rw [write_data_snd_eq]
    obtain ⟨hlen2, -⟩ := List.getElem?_eq_some.mp hget2
    -- the state after the first i+1 characters
    have hsub : ∀ p ∈ (flatten data).take (i + 1), 0 < (PTChar.make p.2 p.1).width :=
      fun p hp => hpos p (List.take_subset _ _ hp)
    have hInvP : InvC1 ((flatten data).take (i + 1))
        (((flatten data).take (i + 1)).foldl
          (fun st p => write_char W margin p.1 st p.2) wdInit) := by
      simpa using invC1_fold W margin [] ((flatten data).take (i + 1)) hsub wdInit invC1_init
    have hlenP : ((flatten data).take (i + 1)).length = i + 1 := by
      rw [List.length_take]
      exact Nat.min_eq_left (by omega)
    set mid := ((flatten data).take (i + 1)).foldl
      (fun st p => write_char W margin p.1 st p.2) wdInit with hmid
    -- offset i is recorded in the prefix state
    have hex : ∃ pr, (i, pr) ∈ mid.indexes_to_pos := by
      have hiP : i ∈ mid.indexes_to_pos.map Prod.fst := by
        have hkeysP := hInvP.2.1
        rw [hlenP] at hkeysP
        rw [hkeysP]
        exact List.mem_range.mpr (by omega)
      obtain ⟨e, heP, hefst⟩ := List.mem_map.mp hiP
      exact ⟨e.2, by rwa [show (i, e.2) = e by rw [← hefst]]⟩
    obtain ⟨pr, hrecP⟩ := hex
    -- the whole fold factors through the prefix state
    have hsplitL : (flatten data).foldl (fun st p => write_char W margin p.1 st p.2) wdInit =
        ((flatten data).drop (i + 1)).foldl
          (fun st p => write_char W margin p.1 st p.2) mid := by
      rw [hmid]
      conv_lhs => rw [← List.take_append_drop (i + 1) (flatten data)]
      rw [List.foldl_append]
    -- so the prefix record survives into the final state; it must be (x, y)
    have heFin : (i, pr) ∈ ((flatten data).foldl
        (fun st p => write_char W margin p.1 st p.2) wdInit).indexes_to_pos := by
      rw [hsplitL]
      exact fold_ipos_mono W margin _ _ _ hrecP
    have hnd : (((flatten data).foldl (fun st p => write_char W margin p.1 st p.2)
        wdInit).indexes_to_pos.map Prod.fst).Nodup := by
      rw [hInv.2.1]
      exact List.nodup_range _
    obtain rfl : pr = (x, y) := keys_unique hnd heFin hmem
    -- the prefix state sits just after the visible character at offset i
    have hlastP : ((flatten data).take (i + 1))[((flatten data).take (i + 1)).length - 1]? =
        some (t, c) := by
      rw [hlenP]
      simpa [List.getElem?_take, (by omega : i < i + 1)] using hget
    obtain ⟨hmy, hmx, hmr⟩ := hInvP.2.2.2 t c x y hlastP hvis
      (by rw [hlenP]; simpa using hrecP)
    -- step the newline: its record is the pre-wrap position
    have hdrop : (flatten data).drop (i + 1) = (t', '\n') :: (flatten data).drop (i + 2) := by
      rw [List.drop_eq_getElem_cons hlen2]
      obtain ⟨h1, hv⟩ := List.getElem?_eq_some.mp hget2
      rw [hv]
    have hstep_ipos : (write_char W margin t' mid '\n').indexes_to_pos =
        mid.indexes_to_pos ++ [(mid.index, (mid.x, mid.y))] := by
      rw [write_char_eq]
      show (wcPlace t' '\n'
        (wcRecord (wcWrap W margin t' '\n' (wcFeed margin mid)))).indexes_to_pos = _
      have hfid : wcFeed margin mid = mid := wcFeed_id margin mid hmr
      have hwid : wcWrap W margin t' '\n' mid = mid := by
        unfold wcWrap
        rw [if_neg (fun hcon => hcon.2 rfl)]
      rw [hfid, wcPlace_ipos, wcRecord_ipos, hwid]
    have hmem2 : (i + 1, (x + (PTChar.make c t).width, y)) ∈
        (write_char W margin t' mid '\n').indexes_to_pos := by
      rw [hstep_ipos]
      refine List.mem_append_right _ (List.mem_singleton.mpr ?_)
      have hmidx : mid.index = i + 1 := by rw [hInvP.1, hlenP]
      rw [hmidx, hmx, hmy]
    rw [hsplitL, hdrop]
    simp only [List.foldl_cons]
    exact fold_ipos_mono W margin _ _ _ hmem2

/-- C1 counterexample: with the zero-width combining acute (U+0301)
followed by `a`, both offsets record position `(0, 0)`, and the grid there
holds the cell of `a` — so reading the grid at offset 0's recorded
position does not recover a cell matching offset 0's character. -/
theorem write_data_index_map_cex :
    (0, ((0 : Nat), (0 : Nat))) ∈
      ((Screen.init 80).write_data [(Tok.base, "\u0301a")] 80 none).2 ∧
    ((Screen.init 80).write_data [(Tok.base, "\u0301a")] 80 none).1.buffer 0 0 =
      some (PTChar.make 'a' Tok.base) ∧
    PTChar.make 'a' Tok.base ≠ PTChar.make '\u0301' Tok.base := by
  refine ⟨by decide, by decide, by decide⟩

/-- C1 witness: a stream with a newline, all characters of positive width. -/
theorem write_data_index_map_witness :
    (∀ p ∈ flatten [(Tok.base, "ab\ncd")], 0 < (PTChar.make p.2 p.1).width) ∧
    ((((Screen.init 80).write_data [(Tok.base, "ab\ncd")] 80 none).2.map Prod.fst =
        List.range (flatten [(Tok.base, "ab\ncd")]).length) ∧
    (∀ i t c x y, (flatten [(Tok.base, "ab\ncd")])[i]? = some (t, c) → c ≠ '\n' →
        (i, (x, y)) ∈ ((Screen.init 80).write_data [(Tok.base, "ab\ncd")] 80 none).2 →
        ((Screen.init 80).write_data [(Tok.base, "ab\ncd")] 80 none).1.buffer y x =
          some (PTChar.make c t)) ∧
    (∀ i t t' c x y, (flatten [(Tok.base, "ab\ncd")])[i]? = some (t, c) → c ≠ '\n' →
        (flatten [(Tok.base, "ab\ncd")])[i + 1]? = some (t', '\n') →
        (i, (x, y)) ∈ ((Screen.init 80).write_data [(Tok.base, "ab\ncd")] 80 none).2 →
        (i + 1, (x + (PTChar.make c t).width, y)) ∈
          ((Screen.init 80).write_data [(Tok.base, "ab\ncd")] 80 none).2)) :=
  ⟨by decide, write_data_index_map [(Tok.base, "ab\ncd")] 80 80 none (by decide)⟩

/-- Python's substring containment `needle in hay`. -/
def strIn (needle hay : String) : Bool := decide (needle.data <:+: hay.data)

/-- One iteration of `BracketsMismatchProcessor.run`'s scan loop: the state
is the (mutated-in-place) token list together with the stack of indices of
unmatched opening brackets. -/
def bm_step (cur_stack : List (Tok × String) × List Nat) (ip : Nat × (Tok × String)) :
    List (Tok × String) × List Nat :=
  let cur := cur_stack.1
  let stack := cur_stack.2
  let index := ip.1
  let text := ip.2.2
  let top : String :=
    match stack with
    | [] => ""
    | s :: _ => ((cur[s]?).map Prod.snd).getD ""
  if strIn text "({[]})" then
    if strIn text "(\x7b[" then (cur, index :: stack)
    else if (text = ")" ∧ top = "(") ∨ (text = "\x7d" ∧ top = "\x7b") ∨
            (text = "]" ∧ top = "[") then (cur, stack.tail)
    else (cur.set index (Tok.error, text), stack)
  else (cur, stack)

/-- `BracketsMismatchProcessor.run`: scan left to right, then retag every
index still on the stack; the token stream keeps its length and the index
remap is the identity lambda. -/
def BracketsMismatchProcessor_run (tokens : List (Tok × String)) :
    List (Tok × String) × (Nat → Nat) :=
  let scanned := tokens.enum.foldl bm_step (tokens, [])
  (scanned.2.foldl (fun cur index =>
      match cur[index]? with
      | some p => cur.set index (Tok.error, p.2)
      | none => cur) scanned.1,
   fun i => i)

/-- First character of a fragment (the fragment's character, for streams
with one character per fragment). -/
def firstChar (s : String) : Char := s.data.headD ' '

/-- The character stream of a one-character-per-fragment token list. -/
def charsOf (tokens : List (Tok × String)) : List Char :=
  tokens.map (fun p => firstChar p.2)

/-- The bracket scan as the spec words it: a single left-to-right pass over
the characters keeping a stack of unmatched openers (index and bracket)
and the list of indices retagged as errors. -/
def refStep (st : List (Nat × Char) × List Nat) (ic : Nat × Char) :
    List (Nat × Char) × List Nat :=
  let stack := st.1
  let errs := st.2
  let i := ic.1
  let c := ic.2
  if c = '(' ∨ c = '{' ∨ c = '[' then ((i, c) :: stack, errs)
  else if c = ')' ∨ c = '}' ∨ c = ']' then
    match stack with
    | [] => (stack, i :: errs)
    | (_, o) :: rest =>
        if (c = ')' ∧ o = '(') ∨ (c = '}' ∧ o = '{') ∨ (c = ']' ∧ o = '[') then (rest, errs)
        else (stack, i :: errs)
  else (stack, errs)

/-- All indices the spec's scan marks as errors: mismatched or unmatched
closers found during the pass, plus the unmatched openers left on the
stack. -/
def refErrors (cs : List Char) : List Nat :=
  let scanned := cs.enum.foldl refStep ([], [])
  scanned.2 ++ scanned.1.map Prod.fst

theorem string_singleton_inj {a b : Char} : String.singleton a = String.singleton b ↔ a = b := by
  constructor
  · intro h
    have hd := congrArg String.data h
    simpa [String.singleton] using hd
  · intro h
    rw [h]

theorem eq_singleton_of_length_one {s : String} (h : s.length = 1) :
    s = String.singleton (firstChar s) := by
  obtain ⟨l⟩ := s
  simp [String.length] at h
  match l, h with
  | [c], _ => rfl

theorem strIn_singleton_iff (c : Char) (hay : String) :
    strIn (String.singleton c) hay = true ↔ c ∈ hay.data := by
  unfold strIn
  rw [decide_eq_true_iff]
  show [c] <:+: hay.data ↔ c ∈ hay.data
  constructor
  · intro h
    exact List.singleton_sublist.mp h.sublist
  · intro h
    obtain ⟨s, t, heq⟩ := List.append_of_mem h
    rw [heq]
    exact ⟨s, t, by simp⟩

theorem singleton_eq_close_iff (c : Char) (d : Char) :
    (String.singleton c = String.singleton d) ↔ c = d := string_singleton_inj

theorem char_set_err {tokens cur : List (Tok × String)} {errs : List Nat} {k : Nat}
    {t0 : Tok} {s0 : String}
    (hlen : cur.length = tokens.length) (htk : tokens[k]? = some (t0, s0))
    (hchar : ∀ i t s, tokens[i]? = some (t, s) →
        cur[i]? = some ((if i ∈ errs then Tok.error else t), s)) :
    ∀ i t s, tokens[i]? = some (t, s) →
      (cur.set k (Tok.error, s0))[i]? =
        some ((if i ∈ k :: errs then Tok.error else t), s) := by
  intro i t s hti
  by_cases hik : i = k
  · subst hik
    obtain ⟨rfl, rfl⟩ : t0 = t ∧ s0 = s := by simpa using Option.some.inj (htk.symm.trans hti)
    have hklen : i < cur.length := by
      rw [hlen]
      exact (List.getElem?_eq_some.mp hti).1
    rw [List.getElem?_set_self]
    rw [if_pos (List.mem_cons_self i errs)]
    simp [hklen]
  · rw [List.getElem?_set_ne (fun h => hik h.symm), hchar i t s hti]
    by_cases hie : i ∈ errs
    · rw [if_pos hie, if_pos (List.mem_cons_of_mem _ hie)]
    · rw [if_neg hie, if_neg (by simp [List.mem_cons, hik, hie])]

theorem firstChar_singleton (c : Char) : firstChar (String.singleton c) = c := rfl

theorem bm_equiv_aux (tokens : List (Tok × String))
    (h1 : ∀ p ∈ tokens, p.2.length = 1) (rest : List (Tok × String)) :
    ∀ (k : Nat), rest = tokens.drop k →
    ∀ (cur : List (Tok × String)) (rstack : List (Nat × Char)) (errs : List Nat),
    cur.length = tokens.length →
    (∀ i t s, tokens[i]? = some (t, s) →
        cur[i]? = some ((if i ∈ errs then Tok.error else t), s)) →
    (∀ pr ∈ rstack, (tokens[pr.1]?).map Prod.snd = some (String.singleton pr.2)) →
    ((List.enumFrom k rest).foldl bm_step (cur, rstack.map Prod.fst)).1.length =
        tokens.length ∧
    (∀ i t s, tokens[i]? = some (t, s) →
      ((List.enumFrom k rest).foldl bm_step (cur, rstack.map Prod.fst)).1[i]? =
        some ((if i ∈ ((List.enumFrom k ((charsOf tokens).drop k)).foldl refStep
            (rstack, errs)).2 then Tok.error else t), s)) ∧
    ((List.enumFrom k rest).foldl bm_step (cur, rstack.map Prod.fst)).2 =
      ((List.enumFrom k ((charsOf tokens).drop k)).foldl refStep (rstack, errs)).1.map
        Prod.fst ∧
    (∀ pr ∈ ((List.enumFrom k ((charsOf tokens).drop k)).foldl refStep (rstack, errs)).1,
        (tokens[pr.1]?).map Prod.snd = some (String.singleton pr.2)) := by
  induction rest with
  | nil =>
      intro k hk cur rstack errs hlen hchar hwf
      have hcs : (charsOf tokens).drop k = [] := by
        unfold charsOf
        rw [← List.map_drop, ← hk]
        rfl
      rw [hcs]
      exact ⟨hlen, hchar, rfl, hwf⟩
  | cons p rest ih =>
      intro k hk cur rstack errs hlen hchar hwf
      obtain ⟨t0, s0⟩ := p
      have htk : tokens[k]? = some (t0, s0) := by
        have h0 : (tokens.drop k)[0]? = some (t0, s0) := by
          rw [← hk]
          simp
        rwa [List.getElem?_drop, Nat.add_zero] at h0
      have hklen : k < tokens.length := (List.getElem?_eq_some.mp htk).1
      have hs0 : s0 = String.singleton (firstChar s0) :=
        eq_singleton_of_length_one (h1 (t0, s0) (List.getElem?_mem htk))
      have hcsk : (charsOf tokens)[k]? = some (firstChar s0) := by
        unfold charsOf
        rw [List.getElem?_map, htk]
        rfl
      have hcs : (charsOf tokens).drop k =
          firstChar s0 :: (charsOf tokens).drop (k + 1) := by
        rw [List.drop_eq_getElem_cons (by simpa [charsOf] using hklen)]
        obtain ⟨hcl, hcv⟩ := List.getElem?_eq_some.mp hcsk
        rw [hcv]
      have hrest : rest = tokens.drop (k + 1) := by
        have htl := congrArg List.tail hk
        simpa [List.tail_drop] using htl
      rw [hcs]
      rw [show List.enumFrom k ((t0, s0) :: rest) =
          (k, (t0, s0)) :: List.enumFrom (k + 1) rest by simp [List.enumFrom]]
      rw [show List.enumFrom k (firstChar s0 :: (charsOf tokens).drop (k + 1)) =
          (k, firstChar s0) :: List.enumFrom (k + 1) ((charsOf tokens).drop (k + 1)) by
        simp [List.enumFrom]]
      simp only [List.foldl_cons]
      by_cases hop : firstChar s0 = '(' ∨ firstChar s0 = '{' ∨ firstChar s0 = '['
      · -- opening bracket: both scans push
        have hb1 : strIn s0 "({[]})" = true := by
          rw [hs0, strIn_singleton_iff]
          rcases hop with h | h | h <;> rw [h] <;> decide
        have hb2 : strIn s0 "(\x7b[" = true := by
          rw [hs0, strIn_singleton_iff]
          rcases hop with h | h | h <;> rw [h] <;> decide
        have hsrc : bm_step (cur, rstack.map Prod.fst) (k, (t0, s0)) =
            (cur, k :: rstack.map Prod.fst) := by
          simp only [bm_step, hb1, hb2, if_true]
        have href : refStep (rstack, errs) (k, firstChar s0) =
            ((k, firstChar s0) :: rstack, errs) := by
          simp only [refStep, eq_true hop, if_true]
        rw [hsrc]
        simp only [href]
        have hnew := ih (k + 1) hrest cur ((k, firstChar s0) :: rstack) errs hlen hchar
          (by
            intro pr hpr
            rcases List.mem_cons.mp hpr with rfl | hpr'
            · rw [htk, ← hs0]
              rfl
            · exact hwf pr hpr')
        simpa using hnew
      · by_cases hclo : firstChar s0 = ')' ∨ firstChar s0 = '}' ∨ firstChar s0 = ']'
        · -- closing bracket
          have hb1 : strIn s0 "({[]})" = true := by
            rw [hs0, strIn_singleton_iff]
            rcases hclo with h | h | h <;> rw [h] <;> decide
          have hb2 : strIn s0 "(\x7b[" = false := by
            rw [hs0]
            rcases Bool.eq_false_or_eq_true (strIn (String.singleton (firstChar s0)) "(\x7b[")
              with hb | hb
            · exfalso
              have hmem := (strIn_singleton_iff _ _).mp hb
              rcases (by simpa using hmem : firstChar s0 = '(' ∨ firstChar s0 = '{' ∨
                firstChar s0 = '[') with h | h | h <;> exact hop (by simp [h])
            · exact hb
          rcases rstack with _ | ⟨⟨j, o⟩, rrest⟩
          · -- empty stack: mismatch, retag the closer
            have hmc : ¬((s0 = ")" ∧ ("" : String) = "(") ∨ (s0 = "\x7d" ∧ ("" : String) = "\x7b") ∨
                (s0 = "]" ∧ ("" : String) = "[")) := by
              rintro (⟨-, hbad⟩ | ⟨-, hbad⟩ | ⟨-, hbad⟩) <;> revert hbad <;> decide
            have hsrc : bm_step (cur, ([] : List (Nat × Char)).map Prod.fst) (k, (t0, s0)) =
                (cur.set k (Tok.error, s0), []) := by
              simp only [bm_step, List.map_nil, hb1, hb2, Bool.false_eq_true, if_true,
                if_false, eq_false hmc]
            have href : refStep (([] : List (Nat × Char)), errs) (k, firstChar s0) =
                ([], k :: errs) := by
              simp only [refStep, eq_false hop, eq_true hclo, if_true, if_false]
            rw [hsrc]
            simp only [href]
            have hnew := ih (k + 1) hrest (cur.set k (Tok.error, s0)) [] (k :: errs)
              (by rw [List.length_set]; exact hlen)
              (char_set_err hlen htk hchar)
              (by intro pr hpr; cases hpr)
            simpa using hnew
          · -- non-empty stack: compare with the top opener
            obtain ⟨pj, htj, hpj2⟩ := Option.map_eq_some'.mp (hwf (j, o) (List.mem_cons_self _ _))
            obtain ⟨tj, sj⟩ := pj
            have hcurj : cur[j]? = some ((if j ∈ errs then Tok.error else tj), sj) :=
              hchar j tj sj htj
            have htop : ((cur[j]?).map Prod.snd).getD "" = String.singleton o := by
              rw [hcurj]
              simpa using hpj2
            have hmc : ((s0 = ")" ∧ String.singleton o = "(") ∨
                (s0 = "\x7d" ∧ String.singleton o = "\x7b") ∨
                (s0 = "]" ∧ String.singleton o = "[")) ↔
                ((firstChar s0 = ')' ∧ o = '(') ∨ (firstChar s0 = '}' ∧ o = '{') ∨
                 (firstChar s0 = ']' ∧ o = '[')) := by
              rw [hs0]
              rw [show ")" = String.singleton ')' from rfl,
                show "\x7d" = String.singleton '}' from rfl,
                show "]" = String.singleton ']' from rfl,
                show "(" = String.singleton '(' from rfl,
                show "\x7b" = String.singleton '{' from rfl,
                show "[" = String.singleton '[' from rfl]
              simp only [string_singleton_inj, firstChar_singleton]
            by_cases hm : (firstChar s0 = ')' ∧ o = '(') ∨ (firstChar s0 = '}' ∧ o = '{') ∨
                (firstChar s0 = ']' ∧ o = '[')
            · -- matching pair: pop
              have hsrc : bm_step (cur, ((j, o) :: rrest).map Prod.fst) (k, (t0, s0)) =
                  (cur, rrest.map Prod.fst) := by
                simp only [bm_step, List.map_cons, hb1, hb2, Bool.false_eq_true, if_true,
                  if_false, htop, eq_true (hmc.mpr hm), List.tail_cons]
              have href : refStep ((j, o) :: rrest, errs) (k, firstChar s0) =
                  (rrest, errs) := by
                simp only [refStep, eq_false hop, eq_true hclo, eq_true hm, if_true, if_false]
              rw [hsrc]
              simp only [href]
              exact ih (k + 1) hrest cur rrest errs hlen hchar
                (fun pr hpr => hwf pr (List.mem_cons_of_mem _ hpr))
            · -- mismatch against a non-empty stack: retag only the closer
              have hsrc : bm_step (cur, ((j, o) :: rrest).map Prod.fst) (k, (t0, s0)) =
                  (cur.set k (Tok.error, s0), j :: rrest.map Prod.fst) := by
                simp only [bm_step, List.map_cons, hb1, hb2, Bool.false_eq_true, if_true,
                  if_false, htop, eq_false (fun hx => hm (hmc.mp hx))]
              have href : refStep ((j, o) :: rrest, errs) (k, firstChar s0) =
                  ((j, o) :: rrest, k :: errs) := by
                simp only [refStep, eq_false hop, eq_true hclo, eq_false hm, if_true, if_false]
              rw [hsrc]
              simp only [href]
              have hnew := ih (k + 1) hrest (cur.set k (Tok.error, s0)) ((j, o) :: rrest)
                (k :: errs)
                (by rw [List.length_set]; exact hlen)
                (char_set_err hlen htk hchar)
                hwf
              simpa using hnew
        · -- not a bracket at all: both scans skip
          have hb1 : strIn s0 "({[]})" = false := by
            rw [hs0]
            rcases Bool.eq_false_or_eq_true (strIn (String.singleton (firstChar s0)) "({[]})")
              with hb | hb
            · exfalso
              have hmem := (strIn_singleton_iff _ _).mp hb
              rcases (by simpa using hmem : firstChar s0 = '(' ∨ firstChar s0 = '{' ∨
                  firstChar s0 = '[' ∨ firstChar s0 = ']' ∨ firstChar s0 = '}' ∨
                  firstChar s0 = ')') with h | h | h | h | h | h
              · exact hop (by simp [h])
              · exact hop (by simp [h])
              · exact hop (by simp [h])
              · exact hclo (by simp [h])
              · exact hclo (by simp [h])
              · exact hclo (by simp [h])
            · exact hb
          have hsrc : bm_step (cur, rstack.map Prod.fst) (k, (t0, s0)) =
              (cur, rstack.map Prod.fst) := by
            simp only [bm_step, hb1, Bool.false_eq_true, if_false]
          have href : refStep (rstack, errs) (k, firstChar s0) = (rstack, errs) := by
            simp only [refStep, eq_false hop, eq_false hclo, if_false]
          rw [hsrc]
          simp only [href]
          exact ih (k + 1) hrest cur rstack errs hlen hchar hwf

theorem if_tok_congr {P Q : Prop} [Decidable P] [Decidable Q] (h : P ↔ Q) (t : Tok) :
    (if P then Tok.error else t) = (if Q then Tok.error else t) := by
  by_cases hp : P
  · rw [if_pos hp, if_pos (h.mp hp)]
  · rw [if_neg hp, if_neg (fun hq => hp (h.mpr hq))]

theorem retag_fold_char {tokens : List (Tok × String)} (is : List Nat) :
    ∀ (cur : List (Tok × String)) (errs : List Nat),
    cur.length = tokens.length →
    (∀ i t s, tokens[i]? = some (t, s) →
        cur[i]? = some ((if i ∈ errs then Tok.error else t), s)) →
    ((is.foldl (fun cur index =>
        match cur[index]? with
        | some p => cur.set index (Tok.error, p.2)
        | none => cur) cur).length = tokens.length ∧
    (∀ i t s, tokens[i]? = some (t, s) →
      (is.foldl (fun cur index =>
        match cur[index]? with
        | some p => cur.set index (Tok.error, p.2)
        | none => cur) cur)[i]? =
          some ((if i ∈ errs ∨ i ∈ is then Tok.error else t), s))) := by
  induction is with
  | nil =>
      intro cur errs hlen hchar
      simp only [List.foldl_nil]
      refine ⟨hlen, fun i t s hti => ?_⟩
      rw [hchar i t s hti]
      exact congrArg (fun tk => some (tk, s)) (if_tok_congr (by simp) t)
  | cons j is ih =>
      intro cur errs hlen hchar
      simp only [List.foldl_cons]
      rcases hj : cur[j]? with - | p
      · -- index out of range (cannot happen for scan stacks): no retag
        have hjlen : ¬ j < cur.length := by
          intro hlt
          rw [List.getElem?_eq_getElem hlt] at hj
          cases hj
        simp only [hj]
        have hnext := ih cur errs hlen hchar
        refine ⟨hnext.1, fun i t s hti => ?_⟩
        rw [hnext.2 i t s hti]
        have hij : i ≠ j := by
          intro hij
          subst hij
          exact hjlen (by rw [hlen]; exact (List.getElem?_eq_some.mp hti).1)
        refine congrArg (fun tk => some (tk, s)) (if_tok_congr ?_ t)
        constructor
        · rintro (he | hs)
          · exact Or.inl he
          · exact Or.inr (List.mem_cons_of_mem _ hs)
        · rintro (he | hs)
          · exact Or.inl he
          · rcases List.mem_cons.mp hs with rfl | hs'
            · exact absurd rfl hij
            · exact Or.inr hs'
      · -- retag index j
        have hjlen : j < tokens.length := by
          rw [← hlen]
          exact (List.getElem?_eq_some.mp hj).1
        obtain ⟨⟨tj, sj⟩, htj⟩ : ∃ q : Tok × String, tokens[j]? = some q := by
          rcases htj : tokens[j]? with - | q
          · rw [List.getElem?_eq_getElem hjlen] at htj
            cases htj
          · exact ⟨q, rfl⟩
        have hcurj := hchar j tj sj htj
        have hp : p = ((if j ∈ errs then Tok.error else tj), sj) :=
          Option.some.inj (hj.symm.trans hcurj)
        simp only [hj, hp]
        have hnext := ih (cur.set j (Tok.error, sj)) (j :: errs)
          (by rw [List.length_set]; exact hlen)
          (char_set_err hlen htj hchar)
        refine ⟨hnext.1, fun i t s hti => ?_⟩
        rw [hnext.2 i t s hti]
        refine congrArg (fun tk => some (tk, s)) (if_tok_congr ?_ t)
        constructor
        · rintro (hs | he)
          · rcases List.mem_cons.mp hs with rfl | hs'
            · exact Or.inr (List.mem_cons_self _ _)
            · exact Or.inl hs'
          · exact Or.inr (List.mem_cons_of_mem _ he)
        · rintro (he | hs)
          · exact Or.inl (List.mem_cons_of_mem _ he)
          · rcases List.mem_cons.mp hs with rfl | hs'
            · exact Or.inl (List.mem_cons_self _ _)
            · exact Or.inr hs'

/-- C4 (amended): on a one-character-per-fragment stream, the processor
performs the single left-to-right stack scan over the FIXED bracket set
`()[]{}` (angle brackets are not recognized and the set is not
configurable): a closing bracket pops a matching stack top, is retagged as
an error otherwise (stack kept), and after the scan every index left on
the stack is retagged; the length is unchanged and the remap is the
identity. -/
theorem brackets_run_spec (tokens : List (Tok × String))
    (h1 : ∀ p ∈ tokens, p.2.length = 1) :
    ((BracketsMismatchProcessor_run tokens).1.length = tokens.length) ∧
    (∀ i t s, tokens[i]? = some (t, s) →
        (BracketsMismatchProcessor_run tokens).1[i]? =
          some ((if i ∈ refErrors (charsOf tokens) then Tok.error else t), s)) ∧
    (∀ i, (BracketsMismatchProcessor_run tokens).2 i = i) := by
  have haux := bm_equiv_aux tokens h1 tokens 0 rfl tokens [] []
    rfl
    (fun i t s hti => by rw [if_neg (List.not_mem_nil i)]; exact hti)
    (fun pr hpr => absurd hpr (List.not_mem_nil pr))
  obtain ⟨hLen, hChar, hStack, hWf⟩ := haux
  have hret := retag_fold_char
    ((List.enumFrom 0 tokens).foldl bm_step (tokens, List.map Prod.fst ([] : List (Nat × Char)))).2
    ((List.enumFrom 0 tokens).foldl bm_step (tokens, List.map Prod.fst ([] : List (Nat × Char)))).1
    ((List.enumFrom 0 ((charsOf tokens).drop 0)).foldl refStep
      (([] : List (Nat × Char)), ([] : List Nat))).2
    hLen hChar
  refine ⟨hret.1, ?_, fun i => rfl⟩
  intro i t s hti
  have h2 := hret.2 i t s hti
  have hiff : (i ∈ ((List.enumFrom 0 ((charsOf tokens).drop 0)).foldl refStep
      (([] : List (Nat × Char)), ([] : List Nat))).2 ∨
      i ∈ ((List.enumFrom 0 tokens).foldl bm_step (tokens, List.map Prod.fst ([] : List (Nat × Char)))).2) ↔
      i ∈ refErrors (charsOf tokens) := by
    rw [hStack]
    exact (List.mem_append).symm
  exact h2.trans (congrArg (fun tk => some (tk, s)) (if_tok_congr hiff t))

/-- C4 counterexample: the processor's bracket set is the fixed `'({[]})'`
— an unmatched `<` is left untouched, although the claim's default set
`[](){}<>` would make it an unmatched opener to retag. -/
theorem brackets_angle_cex :
    (BracketsMismatchProcessor_run [(Tok.base, "<")]).1 = [(Tok.base, "<")] ∧
    Tok.base ≠ Tok.error := by
  refine ⟨by decide, by decide⟩

/-- C4 witness: the mismatch stream `"(a]"`. -/
theorem brackets_run_spec_witness :
    ((BracketsMismatchProcessor_run
        [(Tok.base, "("), (Tok.base, "a"), (Tok.base, "]")]).1.length =
      ([(Tok.base, "("), (Tok.base, "a"), (Tok.base, "]")] : TokList).length) ∧
    (∀ i t s, ([(Tok.base, "("), (Tok.base, "a"), (Tok.base, "]")] : TokList)[i]? =
        some (t, s) →
        (BracketsMismatchProcessor_run
          [(Tok.base, "("), (Tok.base, "a"), (Tok.base, "]")]).1[i]? =
          some ((if i ∈ refErrors
              (charsOf [(Tok.base, "("), (Tok.base, "a"), (Tok.base, "]")])
            then Tok.error else t), s)) ∧
    (∀ i, (BracketsMismatchProcessor_run
        [(Tok.base, "("), (Tok.base, "a"), (Tok.base, "]")]).2 i = i) :=
  brackets_run_spec [(Tok.base, "("), (Tok.base, "a"), (Tok.base, "]")] (by decide)

/-- Closing bracket of an opener. -/
def closeOf (o : Char) : Char := if o = '(' then ')' else if o = '{' then '}' else ']'

/-- BalancedBr bracket streams (over the processor's bracket set `()[]{}`):
the empty stream, a non-bracket character followed by a balanced stream,
or an opener, a balanced body, its matching closer and a balanced tail. -/
inductive BalancedBr : List Char → Prop where
  | nil : BalancedBr []
  | nonbracket (c : Char) (l : List Char)
      (hc : ¬(c = '(' ∨ c = '{' ∨ c = '[' ∨ c = ')' ∨ c = '}' ∨ c = ']'))
      (hl : BalancedBr l) : BalancedBr (c :: l)
  | wrap (o : Char) (l1 l2 : List Char) (ho : o = '(' ∨ o = '{' ∨ o = '[')
      (h1 : BalancedBr l1) (h2 : BalancedBr l2) :
      BalancedBr (o :: l1 ++ closeOf o :: l2)

theorem refScan_balanced {cs : List Char} (h : BalancedBr cs) :
    ∀ (st : List (Nat × Char) × List Nat) (k : Nat),
      (List.enumFrom k cs).foldl refStep st = st := by
  induction h with
  | nil => intro st k; rfl
  | nonbracket c l hc hl ih =>
      intro st k
      rw [show List.enumFrom k (c :: l) = (k, c) :: List.enumFrom (k + 1) l by
        simp [List.enumFrom]]
      simp only [List.foldl_cons]
      have hop : ¬(c = '(' ∨ c = '{' ∨ c = '[') := by
        rintro (h' | h' | h') <;> exact hc (by simp [h'])
      have hclo : ¬(c = ')' ∨ c = '}' ∨ c = ']') := by
        rintro (h' | h' | h') <;> exact hc (by simp [h'])
      rw [show refStep st (k, c) = st by
        simp only [refStep, eq_false hop, eq_false hclo, if_false]]
      exact ih st (k + 1)
  | wrap o l1 l2 ho h1 h2 ih1 ih2 =>
      intro st k
      rw [show List.enumFrom k (o :: l1 ++ closeOf o :: l2) =
          (k, o) :: List.enumFrom (k + 1) (l1 ++ closeOf o :: l2) by simp [List.enumFrom]]
      simp only [List.foldl_cons]
      rw [show refStep st (k, o) = ((k, o) :: st.1, st.2) by
        simp only [refStep, eq_true ho, if_true]]
      rw [List.enumFrom_append, List.foldl_append, ih1 ((k, o) :: st.1, st.2) (k + 1)]
      rw [show List.enumFrom (k + 1 + l1.length) (closeOf o :: l2) =
          (k + 1 + l1.length, closeOf o) :: List.enumFrom (k + 1 + l1.length + 1) l2 by
        simp [List.enumFrom]]
      simp only [List.foldl_cons]
      have hnop : ¬(closeOf o = '(' ∨ closeOf o = '{' ∨ closeOf o = '[') := by
        rcases ho with rfl | rfl | rfl <;> decide
      have hcl : closeOf o = ')' ∨ closeOf o = '}' ∨ closeOf o = ']' := by
        rcases ho with rfl | rfl | rfl <;> decide
      have hm : (closeOf o = ')' ∧ o = '(') ∨ (closeOf o = '}' ∧ o = '{') ∨
          (closeOf o = ']' ∧ o = '[') := by
        rcases ho with rfl | rfl | rfl <;> decide
      rw [show refStep ((k, o) :: st.1, st.2) (k + 1 + l1.length, closeOf o) =
          (st.1, st.2) by
        simp only [refStep, eq_false hnop, eq_true hcl, eq_true hm, if_true, if_false]]
      rw [ih2 (st.1, st.2) (k + 1 + l1.length + 1)]

theorem refErrors_balanced {tokens : List (Tok × String)}
    (hbal : BalancedBr (charsOf tokens)) : refErrors (charsOf tokens) = [] := by
  have hscan := refScan_balanced hbal (([] : List (Nat × Char)), ([] : List Nat)) 0
  simp only [refErrors]
  rw [show (charsOf tokens).enum = List.enumFrom 0 (charsOf tokens) from rfl, hscan]
  rfl

/-- C5 (amended): on a balanced one-character-per-fragment stream the
processor changes nothing; `"(a[b]c)"` gets no error tags; `"(a]"` gets
exactly two error tags — on the `]` and on the `(` left unmatched on the
stack (the mismatched closer does not pop it); `"(a"` gets exactly one
error tag, on the `(`. -/
theorem brackets_balanced_no_change :
    (∀ tokens : List (Tok × String), (∀ p ∈ tokens, p.2.length = 1) →
      BalancedBr (charsOf tokens) →
      (BracketsMismatchProcessor_run tokens).1 = tokens ∧
      (∀ i, (BracketsMismatchProcessor_run tokens).2 i = i)) ∧
    ((BracketsMismatchProcessor_run [(Tok.base, "("), (Tok.base, "a"), (Tok.base, "["),
        (Tok.base, "b"), (Tok.base, "]"), (Tok.base, "c"), (Tok.base, ")")]).1 =
      [(Tok.base, "("), (Tok.base, "a"), (Tok.base, "["), (Tok.base, "b"),
       (Tok.base, "]"), (Tok.base, "c"), (Tok.base, ")")]) ∧
    ((BracketsMismatchProcessor_run [(Tok.base, "("), (Tok.base, "a"), (Tok.base, "]")]).1 =
      [(Tok.error, "("), (Tok.base, "a"), (Tok.error, "]")]) ∧
    ((BracketsMismatchProcessor_run [(Tok.base, "("), (Tok.base, "a")]).1 =
      [(Tok.error, "("), (Tok.base, "a")]) := by
  refine ⟨?_, by decide, by decide, by decide⟩
  intro tokens h1 hbal
  obtain ⟨hlen, hchar, hid⟩ := brackets_run_spec tokens h1
  have hre := refErrors_balanced hbal
  refine ⟨List.ext_getElem? (fun n => ?_), hid⟩
  rcases htn : tokens[n]? with - | ⟨t, s⟩
  · exact List.getElem?_eq_none (by rw [hlen]; exact List.getElem?_eq_none_iff.mp htn)
  · rw [hchar n t s htn, hre]
    simp

/-- C5 witness: the balanced stream `"(a)"`. -/
theorem brackets_balanced_no_change_witness :
    ((BracketsMismatchProcessor_run
        [(Tok.base, "("), (Tok.base, "a"), (Tok.base, ")")]).1 =
      [(Tok.base, "("), (Tok.base, "a"), (Tok.base, ")")]) ∧
    (∀ i, (BracketsMismatchProcessor_run
        [(Tok.base, "("), (Tok.base, "a"), (Tok.base, ")")]).2 i = i) := by
  have hbal : BalancedBr
      (charsOf [(Tok.base, "("), (Tok.base, "a"), (Tok.base, ")")]) := by
    have hw := BalancedBr.wrap '(' ['a'] [] (Or.inl rfl)
      (BalancedBr.nonbracket 'a' [] (by decide) BalancedBr.nil) BalancedBr.nil
    simpa [closeOf, charsOf, firstChar] using hw
  exact (brackets_balanced_no_change.1
    [(Tok.base, "("), (Tok.base, "a"), (Tok.base, ")")] (by decide) hbal)

/-- C5 counterexample: on `"(a]"` the code retags BOTH the `]` (mismatched
closer) and the `(` (left on the stack and swept afterwards) — not exactly
one error tag on the `]` as claimed. -/
theorem brackets_one_error_cex :
    (BracketsMismatchProcessor_run [(Tok.base, "("), (Tok.base, "a"), (Tok.base, "]")]).1 =
      [(Tok.error, "("), (Tok.base, "a"), (Tok.error, "]")] ∧
    Tok.error ≠ Tok.base := by
  refine ⟨by decide, by decide⟩

/-- The document text styled by a token stream (its fragments
concatenated). -/
def textOf (tokens : TokList) : List Char := tokens.flatMap (fun p => p.2.data)

/-- Modelled from the spec: `Document.find_all` (in `document.py`, which is
not among the sources) — the start offsets of "every occurrence of the
active search text" in the document text. -/
def find_all (needle : List Char) (hay : List Char) : List Nat :=
  (List.range (hay.length + 1)).filter
    (fun i => decide ((hay.drop i).take needle.length = needle))

/-- The retag loop run for one search match found at `index`:
`for x in range(index, index + len(text)): tokens[x] = (token, tokens[x][1])`,
with the "current" tag when the match starts at the cursor position. -/
def applyMatch (cursor_position : Nat) (L : Nat) (ts : TokList) (index : Nat) : TokList :=
  let token := if index = cursor_position then Tok.searchMatchCurrent else Tok.searchMatch
  (List.range' index L).foldl (fun ts x =>
    match ts[x]? with
    | some p => ts.set x (token, p.2)
    | none => ts) ts

/-- `HighlightSearchProcessor.run`: when a search state is active, retag
every character of every occurrence of the search text; identity remap. -/
def HighlightSearchProcessor_run (isearch_state : Option String) (cursor_position : Nat)
    (tokens : TokList) : TokList × (Nat → Nat) :=
  match isearch_state with
  | none => (tokens, fun i => i)
  | some isearch_text =>
      ((find_all isearch_text.data (textOf tokens)).foldl
        (applyMatch cursor_position isearch_text.length) tokens,
       fun i => i)

theorem setTag_fold_getElem? (token : Tok) (L : Nat) :
    ∀ (a : Nat) (ts : TokList) (x : Nat),
      ((List.range' a L).foldl (fun ts x =>
        match ts[x]? with
        | some p => ts.set x (token, p.2)
        | none => ts) ts)[x]? =
      if a ≤ x ∧ x < a + L then (ts[x]?).map (fun p => (token, p.2)) else ts[x]? := by
  induction L with
  | zero =>
      intro a ts x
      rw [if_neg (by omega)]
      rfl
  | succ n ih =>
      intro a ts x
      rw [List.range'_succ]
      simp only [List.foldl_cons]
      rcases ha : ts[a]? with - | p
      · -- position `a` out of range: every position in the range is too
        simp only [ha]
        rw [ih (a + 1) ts x]
        have hlen : ts.length ≤ a := by
          by_contra hcon
          rw [List.getElem?_eq_getElem (by omega)] at ha
          cases ha
        by_cases hx : a ≤ x ∧ x < a + (n + 1)
        · rw [if_pos hx]
          by_cases hx1 : a + 1 ≤ x ∧ x < a + 1 + n
          · rw [if_pos hx1]
          · have hxa : x = a := by omega
            rw [if_neg hx1, hxa, ha]
            rfl
        · rw [if_neg hx, if_neg (by omega)]
      · simp only [ha]
        rw [ih (a + 1) (ts.set a (token, p.2)) x]
        have halen : a < ts.length := (List.getElem?_eq_some.mp ha).1
        by_cases hx : a ≤ x ∧ x < a + (n + 1)
        · rw [if_pos hx]
          by_cases hx1 : a + 1 ≤ x ∧ x < a + 1 + n
          · rw [if_pos hx1, List.getElem?_set_ne (by omega)]
          · have hxa : x = a := by omega
            subst hxa
            rw [List.getElem?_set_self, ha]
            · simp
            · exact halen
        · have hxa : x ≠ a := by omega
          rw [if_neg hx, if_neg (by omega), List.getElem?_set_ne (fun h => hxa h.symm)]

theorem setTag_fold_length (token : Tok) (L : Nat) :
    ∀ (a : Nat) (ts : TokList),
      ((List.range' a L).foldl (fun ts x =>
        match ts[x]? with
        | some p => ts.set x (token, p.2)
        | none => ts) ts).length = ts.length := by
  induction L with
  | zero => intro a ts; rfl
  | succ n ih =>
      intro a ts
      rw [List.range'_succ]
      simp only [List.foldl_cons]
      rcases ha : ts[a]? with - | p
      · simp only [ha]
        exact ih (a + 1) ts
      · simp only [ha]
        rw [ih (a + 1) (ts.set a (token, p.2)), List.length_set]

theorem applyMatch_getElem? (cursor L : Nat) (ts : TokList) (index x : Nat) :
    (applyMatch cursor L ts index)[x]? =
      if index ≤ x ∧ x < index + L then
        (ts[x]?).map (fun p =>
          ((if index = cursor then Tok.searchMatchCurrent else Tok.searchMatch), p.2))
      else ts[x]? := by
  unfold applyMatch
  exact setTag_fold_getElem? _ L index ts x

theorem applyMatch_length (cursor L : Nat) (ts : TokList) (index : Nat) :
    (applyMatch cursor L ts index).length = ts.length := by
  unfold applyMatch
  exact setTag_fold_length _ L index ts

theorem foldMatches_getElem? (cursor L : Nat) (os : List Nat) (ts : TokList) (x : Nat) :
    ((os.foldl (applyMatch cursor L) ts)[x]?) =
      match (os.filter (fun i => decide (i ≤ x ∧ x < i + L))).getLast? with
      | none => ts[x]?
      | some m => (ts[x]?).map (fun p =>
          ((if m = cursor then Tok.searchMatchCurrent else Tok.searchMatch), p.2)) := by
  induction os using List.reverseRecOn with
  | nil => rfl
  | append_singleton os o ih =>
      rw [List.foldl_append, List.filter_append]
      simp only [List.foldl_cons, List.foldl_nil, List.filter_cons, List.filter_nil]
      by_cases hcov : o ≤ x ∧ x < o + L
      · rw [if_pos (by simpa using hcov)]
        rw [applyMatch_getElem?, if_pos hcov, ih, List.getLast?_concat]
        rcases (os.filter (fun i => decide (i ≤ x ∧ x < i + L))).getLast? with - | m
        · rfl
        · simp only [Option.map_map]
          rfl
      · rw [if_neg (by simpa using hcov)]
        rw [applyMatch_getElem?, if_neg hcov, ih, List.append_nil]

theorem foldMatches_length (cursor L : Nat) (os : List Nat) (ts : TokList) :
    (os.foldl (applyMatch cursor L) ts).length = ts.length := by
  induction os generalizing ts with
  | nil => rfl
  | cons o os ih => rw [List.foldl_cons, ih, applyMatch_length]

/-- C6 (amended): with an active search state, the processor keeps the
stream length and the identity remap, and the final tag of position `x` is
determined by the LAST-scanned occurrence of the search text covering `x`:
"current search match" exactly when that occurrence STARTS at the cursor
offset (not merely contains it); positions covered by no occurrence keep
their tag, and every fragment keeps its text. -/
theorem search_highlight_spec (s : String) (cursor : Nat) (tokens : TokList)
    (h1 : ∀ p ∈ tokens, p.2.length = 1) :
    ((HighlightSearchProcessor_run (some s) cursor tokens).1.length = tokens.length) ∧
    (∀ i, (HighlightSearchProcessor_run (some s) cursor tokens).2 i = i) ∧
    (∀ x t str, tokens[x]? = some (t, str) →
      (HighlightSearchProcessor_run (some s) cursor tokens).1[x]? =
        some ((match ((find_all s.data (textOf tokens)).filter
            (fun i => decide (i ≤ x ∧ x < i + s.length))).getLast? with
          | none => t
          | some m => if m = cursor then Tok.searchMatchCurrent else Tok.searchMatch),
          str)) := by
  refine ⟨foldMatches_length cursor s.length _ tokens, fun i => rfl, ?_⟩
  intro x t str htx
  show ((find_all s.data (textOf tokens)).foldl
      (applyMatch cursor s.length) tokens)[x]? = _
  rw [foldMatches_getElem?]
  rcases ((find_all s.data (textOf tokens)).filter
      (fun i => decide (i ≤ x ∧ x < i + s.length))).getLast? with - | m
  · exact htx
  · rw [htx]
    rfl

/-- C6 counterexample: searching `"ab"` in `"ab"` with the cursor at
offset 1 — the single occurrence starts at 0 and contains the cursor
offset 1, yet the code tags it as a plain search match because only an
occurrence whose START equals the cursor gets the "current" tag. -/
theorem search_highlight_containing_cex :
    find_all "ab".data (textOf [(Tok.base, "a"), (Tok.base, "b")]) = [0] ∧
    (0 ≤ 1 ∧ 1 < 0 + 2) ∧
    (HighlightSearchProcessor_run (some "ab") 1 [(Tok.base, "a"), (Tok.base, "b")]).1 =
      [(Tok.searchMatch, "a"), (Tok.searchMatch, "b")] ∧
    Tok.searchMatch ≠ Tok.searchMatchCurrent := by
  refine ⟨by decide, by decide, by decide, by decide⟩

/-- C6 witness: searching `"a"` in `"ab"` with the cursor at offset 0. -/
theorem search_highlight_spec_witness :
    (∀ p ∈ ([(Tok.base, "a"), (Tok.base, "b")] : TokList), p.2.length = 1) ∧
    (((HighlightSearchProcessor_run (some "a") 0
        [(Tok.base, "a"), (Tok.base, "b")]).1.length =
      ([(Tok.base, "a"), (Tok.base, "b")] : TokList).length) ∧
    (∀ i, (HighlightSearchProcessor_run (some "a") 0
        [(Tok.base, "a"), (Tok.base, "b")]).2 i = i) ∧
    (∀ x t str, ([(Tok.base, "a"), (Tok.base, "b")] : TokList)[x]? = some (t, str) →
      (HighlightSearchProcessor_run (some "a") 0 [(Tok.base, "a"), (Tok.base, "b")]).1[x]? =
        some ((match ((find_all "a".data (textOf [(Tok.base, "a"), (Tok.base, "b")])).filter
            (fun i => decide (i ≤ x ∧ x < i + "a".length))).getLast? with
          | none => t
          | some m => if m = 0 then Tok.searchMatchCurrent else Tok.searchMatch),
          str))) :=
  ⟨by decide, search_highlight_spec "a" 0 [(Tok.base, "a"), (Tok.base, "b")] (by decide)⟩
